import Mathlib

/-!
Verification of the markdown/block codec and sync protocol of the
`efficient-notion-mcp` repository (`src/notion/markdown.go`,
`src/notion/sync.go`).

Strings are modelled as `List Char`; Go strings are byte arrays and every
function under study manipulates them byte-positionally, so for the ASCII
data the codec handles this embedding is exact.  The untyped
`map[string]any` block values built by the Go code are modelled by the
typed `Block`/`RT` structures below, which capture exactly the JSON trees
those maps denote (the JSON tree is the data the program exchanges with
the remote API).
-/

namespace NotionSync

abbrev Str := List Char

/-- ASCII whitespace, the character class of Go's `strings.TrimSpace`
(the repository only feeds it ASCII). -/
def isSpaceChar (c : Char) : Bool :=
  c = ' ' || c = '\t' || c = '\n' || c = '\r' || c = '\x0b' || c = '\x0c'

/-- Go `strings.TrimSpace`. -/
def trimSpace (s : Str) : Str :=
  ((s.dropWhile isSpaceChar).reverse.dropWhile isSpaceChar).reverse

/-- Helper of Go `splitLines` (src/notion/markdown.go:705): accumulates the
current line (reversed) while scanning. -/
def splitLinesAux : Str → Str → List Str
  | [], acc => if acc.isEmpty then [] else [acc.reverse]
  | '\n' :: rest, acc => acc.reverse :: splitLinesAux rest []
  | c :: rest, acc => splitLinesAux rest (c :: acc)

/-- Go `splitLines` (src/notion/markdown.go:705): split on newline,
keeping interior empty lines, dropping the final segment only when it is
empty (i.e. when the text ends in a newline). -/
def splitLines (s : Str) : List Str := splitLinesAux s []

/-- Go `strings.Split` on a single-character separator: keeps every
(possibly empty) segment, always returns at least one segment. -/
def splitOnChar (sep : Char) : Str → List Str
  | [] => [[]]
  | c :: rest =>
    if c = sep then [] :: splitOnChar sep rest
    else
      match splitOnChar sep rest with
      | s :: ss => (c :: s) :: ss
      | [] => [[c]]

/-- Go `strings.Join` with the given separator. -/
def joinWith (sep : Str) : List Str → Str
  | [] => []
  | [l] => l
  | l :: l2 :: ls => l ++ sep ++ joinWith sep (l2 :: ls)

/-- Go `strings.Index`: position of the first occurrence of `pat`, `none`
for Go's `-1`. -/
def subIndex (pat : Str) : Str → Option Nat
  | [] => if pat.isEmpty then some 0 else none
  | c :: rest =>
    if pat.isPrefixOf (c :: rest) then some 0
    else (subIndex pat rest).map (· + 1)

/-- Go `strings.LastIndex`. -/
def lastSubIndex (pat : Str) : Str → Option Nat
  | [] => if pat.isEmpty then some 0 else none
  | c :: rest =>
    match lastSubIndex pat rest with
    | some i => some (i + 1)
    | none => if pat.isPrefixOf (c :: rest) then some 0 else none

/-- Go `strings.TrimPrefix`. -/
def trimPfx (pat s : Str) : Str := if pat.isPrefixOf s then s.drop pat.length else s

/-- Go `strings.TrimSuffix`. -/
def trimSfx (pat s : Str) : Str := if pat.isSuffixOf s then s.take (s.length - pat.length) else s

/-- The annotation set carried by a rich-text span
(`bold`/`italic`/`code`/`strikethrough`), the keys the Go encoder reads
from the `annotations` map. -/
structure Ann where
  bold : Bool
  italic : Bool
  code : Bool
  strikethrough : Bool
deriving DecidableEq, Repr

/-- No annotation: a span whose `annotations` map is absent or all-false. -/
def Ann.plain : Ann := ⟨false, false, false, false⟩

/-- A Notion rich-text item as the Go code builds and reads it: either a
`"type": "text"` item (content, optional link url, annotations) or a
`"type": "mention"` page mention (page id plus the `plain_text` field,
which is absent — modelled `[]` — on items built by `parseInlineMarkdown`). -/
inductive RT
  | text (content : Str) (link : Option Str) (ann : Ann)
  | mentionPage (pageId : Str) (plainText : Str)
deriving DecidableEq, Repr

/-- Go `findClosing(text, pos, "**")` (src/notion/markdown.go:687), as a
split at the first occurrence of `**`: `some (before, after)` with the two
stars removed.  The Go scan stops at `len-2`, so a single-character
remainder is never inspected.  The Go call sites only use it with
`pos ≥ 2`, so the `end > 0` test there is exactly "found". -/
def splitAtStarStar : Str → Option (Str × Str)
  | [] => none
  | [_] => none
  | c :: c2 :: rest =>
    if c = '*' ∧ c2 = '*' then some ([], rest)
    else (splitAtStarStar (c2 :: rest)).map (fun p => (c :: p.1, p.2))

/-- Go `findClosingSingle` (src/notion/markdown.go:696), as a split at the
first occurrence of the marker character.  Call sites search from `pos ≥ 1`
so `end > 0` is exactly "found". -/
def splitAtChar (m : Char) : Str → Option (Str × Str)
  | [] => none
  | c :: rest =>
    if c = m then some ([], rest)
    else (splitAtChar m rest).map (fun p => (c :: p.1, p.2))

theorem splitAtChar_eq {m : Char} :
    ∀ {s b a : Str}, splitAtChar m s = some (b, a) → s = b ++ m :: a := by
  intro s
  induction s with
  | nil => intro b a h; simp [splitAtChar] at h
  | cons c rest ih =>
    intro b a h
    by_cases hc : c = m
    · rw [splitAtChar, if_pos hc] at h
      cases h
      simp [hc]
    · rw [splitAtChar, if_neg hc] at h
      rw [Option.map_eq_some'] at h
      obtain ⟨p, hp, hba⟩ := h
      have heq := ih hp
      cases hba
      simp [heq]

theorem splitAtStarStar_eq :
    ∀ {s b a : Str}, splitAtStarStar s = some (b, a) → s = b ++ '*' :: '*' :: a := by
  intro s
  induction s with
  | nil => intro b a h; simp [splitAtStarStar] at h
  | cons c rest ih =>
    intro b a h
    cases rest with
    | nil => simp [splitAtStarStar] at h
    | cons c2 r2 =>
      by_cases hc : c = '*' ∧ c2 = '*'
      · obtain ⟨h1, h2⟩ := hc
        subst h1; subst h2
        simp [splitAtStarStar] at h
        obtain ⟨hb, ha⟩ := h
        subst hb; subst ha; rfl
      · simp only [splitAtStarStar, if_neg hc, Option.map_eq_some'] at h
        obtain ⟨p, hp, hba⟩ := h
        have heq := ih hp
        cases hba
        simp [heq]

theorem splitAtChar_length {m : Char} {s b a : Str}
    (h : splitAtChar m s = some (b, a)) : a.length < s.length := by
  have := splitAtChar_eq h
  subst this
  simp
  omega

theorem splitAtStarStar_length {s b a : Str}
    (h : splitAtStarStar s = some (b, a)) : a.length < s.length := by
  have := splitAtStarStar_eq h
  subst this
  simp
  omega

/-- The three characters at which the regular-text scan of
`parseInlineMarkdown` stops (src/notion/markdown.go:584). -/
def isSpecialChar (c : Char) : Bool := c = '*' || c = '`' || c = '['

theorem length_dropWhile_le (p : Char → Bool) (l : Str) :
    (l.dropWhile p).length ≤ l.length := by
  induction l with
  | nil => simp
  | cons c rest ih =>
    by_cases hc : p c
    · rw [List.dropWhile_cons_of_pos hc]
      exact Nat.le_succ_of_le ih
    · rw [List.dropWhile_cons_of_neg hc]

theorem length_dropWhile_cons_lt {p : Char → Bool} {c : Char} {rest : Str}
    (h : p c = true) :
    ((c :: rest).dropWhile p).length < (c :: rest).length := by
  rw [List.dropWhile_cons_of_pos h]
  exact Nat.lt_succ_of_le (length_dropWhile_le p rest)

/-- The scan loop of Go `parseInlineMarkdown` (src/notion/markdown.go:496),
one case per branch of the loop body; the head of the list is the scan
position `i`.  A marker with no closing counterpart falls through every
branch to the regular-text case, which emits the single character as a
literal span and advances by one — exactly the Go control flow.

The `fuel` argument only makes the recursion structural (so that the
definition evaluates inside the kernel); every step consumes at least one
character, so `fuel = length` — as the wrapper `parseInlineCore` passes —
always suffices and the fuel-exhaustion branch is unreachable
(`parseInlineFuel_fuel_irrel` below). -/
def parseInlineFuel : Nat → Str → List RT
  | _, [] => []
  | 0, _ :: _ => []
  | fuel + 1, '*' :: '*' :: r2 =>
    match splitAtStarStar r2 with
    | some (content, after) =>
      RT.text content Option.none ⟨true, false, false, false⟩ :: parseInlineFuel fuel after
    | none => RT.text ['*'] Option.none Ann.plain :: parseInlineFuel fuel ('*' :: r2)
  | fuel + 1, '*' :: rest =>
    match splitAtChar '*' rest with
    | some (content, after) =>
      RT.text content Option.none ⟨false, true, false, false⟩ :: parseInlineFuel fuel after
    | none => RT.text ['*'] Option.none Ann.plain :: parseInlineFuel fuel rest
  | fuel + 1, '`' :: rest =>
    match splitAtChar '`' rest with
    | some (content, after) =>
      RT.text content Option.none ⟨false, false, true, false⟩ :: parseInlineFuel fuel after
    | none => RT.text ['`'] Option.none Ann.plain :: parseInlineFuel fuel rest
  | fuel + 1, '[' :: rest =>
    match splitAtChar ']' rest with
    | some (linkText, '(' :: r2) =>
      match splitAtChar ')' r2 with
      | some (url, after) =>
        (if ("notion://".toList).isPrefixOf url ∧ (['@']).isPrefixOf linkText then
          RT.mentionPage (url.drop 9) []
        else
          RT.text linkText (some url) Ann.plain) :: parseInlineFuel fuel after
      | none => RT.text ['['] Option.none Ann.plain :: parseInlineFuel fuel rest
    | some (_, []) => RT.text ['['] Option.none Ann.plain :: parseInlineFuel fuel rest
    | some (_, _ :: _) => RT.text ['['] Option.none Ann.plain :: parseInlineFuel fuel rest
    | none => RT.text ['['] Option.none Ann.plain :: parseInlineFuel fuel rest
  | fuel + 1, c :: rest =>
    if isSpecialChar c then
      RT.text [c] Option.none Ann.plain :: parseInlineFuel fuel rest
    else
      RT.text ((c :: rest).takeWhile (fun ch => !(isSpecialChar ch))) Option.none Ann.plain
        :: parseInlineFuel fuel ((c :: rest).dropWhile (fun ch => !(isSpecialChar ch)))

/-- The scan loop of `parseInlineMarkdown`, at its (always sufficient)
fuel value. -/
def parseInlineCore (s : Str) : List RT := parseInlineFuel s.length s

/-- Go `parseInlineMarkdown` (src/notion/markdown.go:496): the scan loop
plus the final empty-result fallback, which returns a single plain span
holding the whole text (reachable only for empty input). -/
def parseInlineMarkdown (text : Str) : List RT :=
  let result := parseInlineCore text
  if result.isEmpty then [RT.text text Option.none Ann.plain] else result

/-- A Notion block as the Go code builds and reads it (the JSON tree of
the `map[string]any` values): one constructor per `"type"` tag that the
codec produces or consumes.  `code` stores the content of its single
plain rich-text span plus the language; `table` stores the
`table_width`, the two header flags and its `table_row` children as
cell rich-text lists; `childPage` stores the block id and the
`child_page.title` payload.  The read-only `_comments` decoration is not
modelled: no decoded block carries it and no claim concerns it. -/
inductive Block
  | heading1 (rt : List RT)
  | heading2 (rt : List RT)
  | heading3 (rt : List RT)
  | paragraph (rt : List RT)
  | bulleted (rt : List RT)
  | numbered (rt : List RT)
  | todo (rt : List RT) (checked : Bool)
  | quote (rt : List RT)
  | callout (rt : List RT)
  | code (content : Str) (language : Str)
  | divider
  | table (width : Nat) (hasColumnHeader : Bool) (hasRowHeader : Bool)
      (rows : List (List (List RT)))
  | childPage (id : Str) (title : Str)
deriving DecidableEq, Repr

/-- The `"type"` string tag of a block, as an enumeration. -/
inductive BKind
  | heading1 | heading2 | heading3 | paragraph | bulleted | numbered
  | todo | quote | callout | code | divider | table | childPage
deriving DecidableEq, Repr

def Block.kind : Block → BKind
  | .heading1 _ => .heading1
  | .heading2 _ => .heading2
  | .heading3 _ => .heading3
  | .paragraph _ => .paragraph
  | .bulleted _ => .bulleted
  | .numbered _ => .numbered
  | .todo _ _ => .todo
  | .quote _ => .quote
  | .callout _ => .callout
  | .code _ _ => .code
  | .divider => .divider
  | .table _ _ _ _ => .table
  | .childPage _ _ => .childPage

/-- Go `mapLanguageToNotion`'s alias table (src/notion/markdown.go:729). -/
def languageAliases : List (Str × Str) :=
  [("plaintext".toList, "plain text".toList),
   ("plain".toList, "plain text".toList),
   ("text".toList, "plain text".toList),
   ("txt".toList, "plain text".toList),
   ("js".toList, "javascript".toList),
   ("ts".toList, "typescript".toList),
   ("py".toList, "python".toList),
   ("rb".toList, "ruby".toList),
   ("sh".toList, "shell".toList),
   ("bash".toList, "shell".toList),
   ("zsh".toList, "shell".toList),
   ("yml".toList, "yaml".toList),
   ("dockerfile".toList, "docker".toList),
   ("md".toList, "markdown".toList)]

/-- Go `mapLanguageToNotion`'s `knownLanguages` set
(src/notion/markdown.go:751). -/
def notionKnownLanguages : List Str :=
  ["abap", "arduino", "assembly", "bash",
   "c", "c#", "c++", "clojure", "coffeescript",
   "css", "dart", "diff", "docker", "elixir",
   "elm", "erlang", "flow", "fortran", "f#",
   "gherkin", "glsl", "go", "graphql", "groovy",
   "haskell", "html", "java", "javascript", "json",
   "julia", "kotlin", "latex", "less", "lisp",
   "livescript", "lua", "makefile", "markdown",
   "markup", "matlab", "mermaid", "nix",
   "objective-c", "ocaml", "pascal", "perl",
   "php", "plain text", "powershell", "prolog",
   "protobuf", "python", "r", "reason", "ruby",
   "rust", "sass", "scala", "scheme", "scss",
   "shell", "sql", "swift", "typescript",
   "vb.net", "verilog", "vhdl", "visual basic",
   "webassembly", "xml", "yaml", "java/c/c++/c#"].map String.toList

/-- Go `mapLanguageToNotion` (src/notion/markdown.go:722).  Case mapping
is modelled at ASCII level (`Char.toLower`), which agrees with Go's
Unicode `strings.ToLower` on the ASCII hints the mapping distinguishes. -/
def mapLanguageToNotion (lang : Str) : Str :=
  let l := (trimSpace lang).map Char.toLower
  if l = [] then "plain text".toList
  else
    match (languageAliases.find? (fun p => p.1 == l)).map (fun p => p.2) with
    | some m => m
    | none =>
      if notionKnownLanguages.contains l then l else "plain text".toList

/-- Condition for a fence line (` ``` ` as first three bytes), used both
to open a code block (src/notion/markdown.go:72) and to close it
(src/notion/markdown.go:78). -/
def isFenceLine (l : Str) : Bool := decide (3 ≤ l.length) && l.take 3 == "```".toList

/-- The fenced-code consumption loop of `MarkdownToBlocks`
(src/notion/markdown.go:76): collects lines until a closing fence (which
is consumed) or end of input. -/
def takeCodeLines : List Str → List Str × List Str
  | [] => ([], [])
  | l :: ls =>
    if isFenceLine l then ([], ls)
    else
      let p := takeCodeLines ls
      (l :: p.1, p.2)

theorem takeCodeLines_rest_length : ∀ ls : List Str, (takeCodeLines ls).2.length ≤ ls.length := by
  intro ls
  induction ls with
  | nil => simp [takeCodeLines]
  | cons l ls ih =>
    by_cases hf : isFenceLine l
    · simp [takeCodeLines, hf]
    · simp only [takeCodeLines, if_neg hf]
      exact Nat.le_succ_of_le ih

/-- The table consumption loop of `MarkdownToBlocks`
(src/notion/markdown.go:168): collects the consecutive following lines
that start with `|`. -/
def takeTableLines : List Str → List Str × List Str
  | [] => ([], [])
  | l :: ls =>
    if l.headI = '|' ∧ l ≠ [] then
      let p := takeTableLines ls
      (l :: p.1, p.2)
    else ([], l :: ls)

theorem takeTableLines_rest_length : ∀ ls : List Str, (takeTableLines ls).2.length ≤ ls.length := by
  intro ls
  induction ls with
  | nil => simp [takeTableLines]
  | cons l ls ih =>
    by_cases hf : l.headI = '|' ∧ l ≠ []
    · simp only [takeTableLines, if_pos hf]
      exact Nat.le_succ_of_le ih
    · simp [takeTableLines, hf]

/-- The `parseCells` closure of Go `parseMarkdownTable`
(src/notion/markdown.go:615): trim, strip one leading and one trailing
`|`, split on `|`, trim each part. -/
def parseCells (row : Str) : List Str :=
  let r1 := trimSpace row
  let r2 := match r1 with
    | '|' :: rest => rest
    | other => other
  let r3 := if r2.getLast? = some '|' then r2.dropLast else r2
  (splitOnChar '|' r3).map trimSpace

/-- The `isSeparator` closure of Go `parseMarkdownTable`
(src/notion/markdown.go:631): after trimming, every character is one of
`| - : space` and at least one `-` occurs. -/
def isSeparatorRow (row : Str) : Bool :=
  let r := trimSpace row
  r.all (fun c => c = '|' || c = '-' || c = ':' || c = ' ') && r.contains '-'

/-- Go `parseMarkdownTable` (src/notion/markdown.go:610): discards
separator rows, keeps rows with at least one cell, fixes the width from
the first data row, right-pads short rows with empty cells and truncates
long ones, and parses each cell inline.  `none` models the Go `nil`
return (fewer than two raw rows, or no data rows). -/
def parseMarkdownTable (rows : List Str) : Option Block :=
  if rows.length < 2 then Option.none
  else
    let dataRows :=
      ((rows.filter (fun r => !(isSeparatorRow r))).map parseCells).filter
        (fun cs => !(cs.isEmpty))
    if dataRows.isEmpty then Option.none
    else
      let w := dataRows.headI.length
      some (.table w true false (dataRows.map (fun cells =>
        let padded := cells ++ List.replicate (w - cells.length) []
        (padded.take w).map parseInlineMarkdown)))

/-- The numbered-list match of `MarkdownToBlocks`
(src/notion/markdown.go:130): first byte a digit, a dot at index 1, 2 or
3 followed by a space, scanning left to right and aborting at the first
non-digit; on success returns the text after the dot-space. -/
def numberedSplit (line : Str) : Option Str :=
  if 3 < line.length ∧ ('0' ≤ line.getD 0 ' ' ∧ line.getD 0 ' ' ≤ '9') then
    if line.getD 1 ' ' = '.' ∧ line.getD 2 ' ' = ' ' then some (line.drop 3)
    else if ¬ ('0' ≤ line.getD 1 ' ' ∧ line.getD 1 ' ' ≤ '9') then Option.none
    else if line.getD 2 ' ' = '.' ∧ line.getD 3 ' ' = ' ' then some (line.drop 4)
    else if ¬ ('0' ≤ line.getD 2 ' ' ∧ line.getD 2 ' ' ≤ '9') then Option.none
    else if line.getD 3 ' ' = '.' ∧ 4 < line.length ∧ line.getD 4 ' ' = ' ' then
      some (line.drop 5)
    else Option.none
  else Option.none

/-- The child-page comment marker test of `MarkdownToBlocks`
(src/notion/markdown.go:21) and `parseChildPageComments`
(src/notion/sync.go:1452). -/
def childPageMarker (line : Str) : Bool :=
  ("<!-- child_page:".toList).isPrefixOf line && ("-->".toList).isSuffixOf line

/-- The outcome of classifying one non-consumed line in the loop of Go
`MarkdownToBlocks` (src/notion/markdown.go:13-187): skip it, emit one
block, open a fenced code block (with the trimmed language hint), or
start a table. -/
inductive LineCmd
  | skip
  | blockOne (b : Block)
  | fence (lang : Str)
  | tableStart
deriving DecidableEq, Repr

/-- The ordered line-start classification of the `MarkdownToBlocks` loop
body (src/notion/markdown.go:13-187), one test per branch in the source's
order: empty line, child-page marker, headings 1-3, divider, fence,
checkbox, bullet, numbered, quote, table, paragraph. -/
def classifyLine (line : Str) : LineCmd :=
  if line = [] then .skip
  else if childPageMarker line then .skip
  else if 2 < line.length ∧ line.getD 0 ' ' = '#' ∧ line.getD 1 ' ' = ' ' then
    .blockOne (.heading1 (parseInlineMarkdown (line.drop 2)))
  else if 3 < line.length ∧ line.take 3 = "## ".toList then
    .blockOne (.heading2 (parseInlineMarkdown (line.drop 3)))
  else if 4 < line.length ∧ line.take 4 = "### ".toList then
    .blockOne (.heading3 (parseInlineMarkdown (line.drop 4)))
  else if line = "---".toList then .blockOne .divider
  else if 3 ≤ line.length ∧ line.take 3 = "```".toList then
    .fence (trimSpace (line.drop 3))
  else if 5 < line.length ∧ (line.take 5 = "- [ ]".toList ∨ line.take 5 = "- [x]".toList) then
    .blockOne (.todo (parseInlineMarkdown (line.drop 6)) (line.getD 3 ' ' = 'x'))
  else if 2 < line.length ∧ line.take 2 = "- ".toList then
    .blockOne (.bulleted (parseInlineMarkdown (line.drop 2)))
  else
    match numberedSplit line with
    | some content => .blockOne (.numbered (parseInlineMarkdown content))
    | none =>
      if 2 < line.length ∧ line.take 2 = "> ".toList then
        .blockOne (.quote (parseInlineMarkdown (line.drop 2)))
      else if line.headI = '|' then .tableStart
      else .blockOne (.paragraph (parseInlineMarkdown line))

/-- The loop of Go `MarkdownToBlocks` (src/notion/markdown.go:13-187):
classify the current line, then emit blocks and consume further lines
accordingly.  As with `parseInlineFuel`, `fuel` only makes the recursion
structural; every step consumes at least one line, so `fuel = number of
lines` — as the wrapper `mdBlocks` passes — always suffices. -/
def mdBlocksFuel : Nat → List Str → List Block
  | _, [] => []
  | 0, _ :: _ => []
  | fuel + 1, line :: rest =>
    match classifyLine line with
    | .skip => mdBlocksFuel fuel rest
    | .blockOne b => b :: mdBlocksFuel fuel rest
    | .fence lang =>
      let p := takeCodeLines rest
      .code (joinWith ['\n'] p.1) (mapLanguageToNotion lang) :: mdBlocksFuel fuel p.2
    | .tableStart =>
      let p := takeTableLines rest
      match parseMarkdownTable (line :: p.1) with
      | some b => b :: mdBlocksFuel fuel p.2
      | none => mdBlocksFuel fuel p.2

/-- The classification loop at its (always sufficient) fuel value. -/
def mdBlocks (lines : List Str) : List Block := mdBlocksFuel lines.length lines

/-- Go `MarkdownToBlocks` (src/notion/markdown.go:9). -/
def MarkdownToBlocks (markdown : Str) : List Block := mdBlocks (splitLines markdown)

/-- Go `fmt.Sprintf("%d", n)` for the ordinal counter. -/
def natToStr (n : Nat) : Str := (Nat.repr n).toList

/-- Go `richTextToMarkdown` (src/notion/markdown.go:361) on one item.
For a text item: wrap in markers in the source's order (code, bold,
italic, strikethrough), then in the link when the url is non-empty.  For
a page mention: write `[@plain_text](notion://id)` with `plain_text`
defaulting to `Page`, skipping annotations and link (the Go `continue`). -/
def rtToMarkdown1 : RT → Str
  | .text content link ann =>
    let c1 := if ann.code then '`' :: content ++ ['`'] else content
    let c2 := if ann.bold then '*' :: '*' :: c1 ++ "**".toList else c1
    let c3 := if ann.italic then '*' :: c2 ++ ['*'] else c2
    let c4 := if ann.strikethrough then '~' :: '~' :: c3 ++ "~~".toList else c3
    match link with
    | some url => if url = [] then c4 else '[' :: c4 ++ "](".toList ++ url ++ [')']
    | none => c4
  | .mentionPage id plainText =>
    let pt := if plainText = [] then "Page".toList else plainText
    "[@".toList ++ pt ++ "](notion://".toList ++ id ++ [')']

/-- Go `richTextToMarkdown` (src/notion/markdown.go:361). -/
def richTextToMarkdown (rts : List RT) : Str := (rts.map rtToMarkdown1).flatten

/-- One row line of Go `extractTableMarkdown` (src/notion/markdown.go:484). -/
def tableRowLine (cells : List Str) : Str :=
  "| ".toList ++ joinWith " | ".toList cells ++ " |\n".toList

/-- The separator line Go `extractTableMarkdown` writes after the first
row (src/notion/markdown.go:486). -/
def tableSepLine (n : Nat) : Str := tableRowLine (List.replicate n "---".toList)

/-- Go `extractTableMarkdown` (src/notion/markdown.go:449): renders each
row's cells through `richTextToMarkdown`, inserting the dash separator
after the first row; empty-row-list tables render as the empty string. -/
def extractTableMarkdown (rows : List (List (List RT))) : Str :=
  match rows.map (fun r => r.map richTextToMarkdown) with
  | [] => []
  | r0 :: rs => tableRowLine r0 ++ tableSepLine r0.length ++ (rs.map tableRowLine).flatten

/-- One iteration of the loop of Go `BlocksToMarkdownWithChildPages`
(src/notion/markdown.go:202): from the state (ordinal counter, type tag of
the previous block — `Option.none` for the initial empty tag) and the
block, produce the emitted chunk and the next state.  A trailing child
page is skipped by `continue`, so it does not update the previous-type
tag (but the ordinal reset at the top of the loop body has already run). -/
def encBlock (trailing : Str → Bool) (st : Nat × Option BKind) (b : Block) :
    Str × (Nat × Option BKind) :=
  let listNum := if b.kind ≠ BKind.numbered ∧ st.2 = some BKind.numbered then 1 else st.1
  match b with
  | .heading1 rt => ("# ".toList ++ richTextToMarkdown rt ++ "\n\n".toList, (listNum, some .heading1))
  | .heading2 rt => ("## ".toList ++ richTextToMarkdown rt ++ "\n\n".toList, (listNum, some .heading2))
  | .heading3 rt => ("### ".toList ++ richTextToMarkdown rt ++ "\n\n".toList, (listNum, some .heading3))
  | .paragraph rt => (richTextToMarkdown rt ++ "\n\n".toList, (listNum, some .paragraph))
  | .bulleted rt => ("- ".toList ++ richTextToMarkdown rt ++ ['\n'], (listNum, some .bulleted))
  | .numbered rt =>
    (natToStr listNum ++ ". ".toList ++ richTextToMarkdown rt ++ ['\n'],
     (listNum + 1, some .numbered))
  | .todo rt checked =>
    ("- [".toList ++ [if checked then 'x' else ' '] ++ "] ".toList ++
       richTextToMarkdown rt ++ ['\n'],
     (listNum, some .todo))
  | .quote rt => ("> ".toList ++ richTextToMarkdown rt ++ "\n\n".toList, (listNum, some .quote))
  | .callout rt => ("> ".toList ++ richTextToMarkdown rt ++ "\n\n".toList, (listNum, some .callout))
  | .code content lang =>
    ("```".toList ++ lang ++ ['\n'] ++ content ++ "\n```\n\n".toList, (listNum, some .code))
  | .divider => ("---\n\n".toList, (listNum, some .divider))
  | .childPage id title =>
    if id ≠ [] then
      if trailing id then ([], (listNum, st.2))
      else
        ("[@".toList ++ (if title = [] then "Untitled".toList else title) ++
           "](notion://".toList ++ id ++ ")\n\n".toList,
         (listNum, some .childPage))
    else ([], (listNum, some .childPage))
  | .table _ _ _ rows => (extractTableMarkdown rows ++ ['\n'], (listNum, some .table))

/-- The loop of Go `BlocksToMarkdownWithChildPages`, returning both the
built string and the final loop state. -/
def blocksToMarkdownRun (trailing : Str → Bool) :
    Nat × Option BKind → List Block → Str × (Nat × Option BKind)
  | st, [] => ([], st)
  | st, b :: bs =>
    let p := encBlock trailing st b
    let q := blocksToMarkdownRun trailing p.2 bs
    (p.1 ++ q.1, q.2)

/-- Go `BlocksToMarkdownWithChildPages` (src/notion/markdown.go:202).
The Go `trailingChildPages map[string]bool` parameter is the membership
test `trailing`; a `nil` map is `fun _ => false`. -/
def BlocksToMarkdownWithChildPages (blocks : List Block) (trailing : Str → Bool) : Str :=
  (blocksToMarkdownRun trailing (1, Option.none) blocks).1

/-- Go `BlocksToMarkdown` (src/notion/markdown.go:194). -/
def BlocksToMarkdown (blocks : List Block) : Str :=
  BlocksToMarkdownWithChildPages blocks (fun _ => false)

/-! ## The sync layer (src/notion/sync.go)

`sync.go` holds two snapshots of the package separated by a document
marker; the claims cite both.  `parseFrontmatterFull` and the pull
frontmatter rendering are from the first snapshot, `parseFrontmatter`,
`PushPage` (strategy selection) and `DiffPage` from the second; the two
snapshots' `DiffPage` bodies are identical.  Network calls are modelled
by passing the fetched remote block list as an argument and by returning
the decided plan instead of executing it; everything before the first
remote call is modelled exactly. -/

/-- The `notion_id` search loop of Go `parseFrontmatter`
(src/notion/sync.go:2042): first line with the prefix wins. -/
def fmFindNotionId : List Str → Str
  | [] => []
  | l :: ls =>
    if ("notion_id:".toList).isPrefixOf l then trimSpace (trimPfx "notion_id:".toList l)
    else fmFindNotionId ls

/-- Go `parseFrontmatter` (src/notion/sync.go:2029, second snapshot):
requires a leading `---\n`, cuts the header at the first `\n---\n`, and
scans the header lines for `notion_id:`; on failure returns an empty id
and the whole content. -/
def parseFrontmatter (content : Str) : Str × Str :=
  if ("---\n".toList).isPrefixOf content then
    match subIndex "\n---\n".toList (content.drop 4) with
    | some endIdx =>
      (fmFindNotionId (splitOnChar '\n' ((content.drop 4).take endIdx)),
       (content.drop 4).drop (endIdx + 5))
    | none => ([], content)
  else ([], content)

/-- The header-line loop of Go `parseFrontmatterFull`
(src/notion/sync.go:727): state is (page id, child page ids,
`inChildPages`). -/
def fmFullLoop : List Str → Str × List Str × Bool → Str × List Str × Bool
  | [], st => st
  | l :: ls, (pid, cps, inCp) =>
    if ("notion_id:".toList).isPrefixOf l then
      fmFullLoop ls (trimSpace (trimPfx "notion_id:".toList l), cps, false)
    else if ("child_pages:".toList).isPrefixOf l then
      fmFullLoop ls (pid, cps, true)
    else if inCp ∧ ("  - ".toList).isPrefixOf l then
      let cpID := trimSpace (trimPfx "  - ".toList l)
      fmFullLoop ls (pid, if cpID = [] then cps else cps ++ [cpID], inCp)
    else if ¬ (("  ".toList).isPrefixOf l) then
      fmFullLoop ls (pid, cps, false)
    else
      fmFullLoop ls (pid, cps, inCp)

/-- Go `parseFrontmatterFull` (src/notion/sync.go:714, first snapshot). -/
def parseFrontmatterFull (content : Str) : Str × List Str × Str :=
  if ("---\n".toList).isPrefixOf content then
    match subIndex "\n---\n".toList (content.drop 4) with
    | some endIdx =>
      let st := fmFullLoop (splitOnChar '\n' ((content.drop 4).take endIdx)) ([], [], false)
      (st.1, st.2.1, (content.drop 4).drop (endIdx + 5))
    | none => ([], [], content)
  else ([], [], content)

/-- The frontmatter `PullPage` writes (src/notion/sync.go:173-183, first
snapshot) followed by the page markdown: `---`, `notion_id`, `title`,
`pulled_at`, an optional `child_pages` id list, a closing `---` and a
blank line. -/
def renderPullContent (pageID title pulledAt : Str) (childPageIDs : List Str)
    (markdown : Str) : Str :=
  let fm0 := "---\nnotion_id: ".toList ++ pageID ++ "\ntitle: ".toList ++ title ++
    "\npulled_at: ".toList ++ pulledAt ++ ['\n']
  let fm1 :=
    if childPageIDs = [] then fm0
    else fm0 ++ "child_pages:\n".toList ++
      (childPageIDs.map (fun c => "  - ".toList ++ c ++ ['\n'])).flatten
  fm1 ++ "---\n\n".toList ++ markdown

/-- Go `extractCommentsSection` (src/notion/sync.go:747): split the body
at the `## Comments` heading, cutting at the last `---` divider before it
when present. -/
def extractCommentsSection (markdown : Str) : Str × Str :=
  match subIndex "\n## Comments\n".toList markdown with
  | none => (markdown, [])
  | some idx =>
    match lastSubIndex "\n---\n".toList (markdown.take idx) with
    | some dividerIdx =>
      (trimSpace (markdown.take dividerIdx), trimSpace (markdown.drop (idx + 13)))
    | none => (trimSpace (markdown.take idx), trimSpace (markdown.drop (idx + 13)))

/-- Go `childPageInfo` (src/notion/sync.go:1162): a child-page marker
found in the markdown, with the index of the block it precedes. -/
structure ChildPageInfo where
  id : Str
  title : Str
  position : Nat
deriving DecidableEq, Repr

/-- Marker-line payload parsing shared by `parseChildPageComments`
(src/notion/sync.go:1453) and `markdownToBlocksWithChildPageWarnings`
(src/notion/sync.go:1506): strip the delimiters, trim, `SplitN` at the
first `|`. -/
def parseMarkerInner (line : Str) : Str × Str :=
  let inner := trimSpace (trimSfx "-->".toList (trimPfx "<!-- child_page:".toList line))
  match splitAtChar '|' inner with
  | some (a, b) => (trimSpace a, trimSpace b)
  | none => (trimSpace inner, [])

/-- The line loop of Go `parseChildPageComments` (src/notion/sync.go:1446):
empty lines are skipped, marker lines record a `ChildPageInfo` at the
current block index without advancing it, all other lines advance it. -/
def parseChildPageCommentsAux : List Str → Nat → List ChildPageInfo
  | [], _ => []
  | l :: ls, idx =>
    if l = [] then parseChildPageCommentsAux ls idx
    else if childPageMarker l then
      let p := parseMarkerInner l
      ⟨p.1, p.2, idx⟩ :: parseChildPageCommentsAux ls idx
    else parseChildPageCommentsAux ls (idx + 1)

/-- Go `parseChildPageComments` (src/notion/sync.go:1441). -/
def parseChildPageComments (markdown : Str) : List ChildPageInfo :=
  parseChildPageCommentsAux (splitLines markdown) 0

/-- The warning paragraph Go `markdownToBlocksWithChildPageWarnings`
inserts (src/notion/sync.go:1515): an italic gray span
"(child page 'TITLE' moved to end of this doc)".  The `color` decoration
of the Go annotations map is not part of the modelled annotation set; the
codec never reads it. -/
def warningBlock (title : Str) : Block :=
  Block.paragraph [RT.text ("(child page ".toList ++ [Char.ofNat 39] ++ title ++
    [Char.ofNat 39] ++ " moved to end of this doc)".toList)
    Option.none ⟨false, true, false, false⟩]

/-- Go's `warningMap` lookup (src/notion/sync.go:1493): map insertion in
order means the last entry with a given id wins. -/
def warningLookup (ws : List ChildPageInfo) (id : Str) : Option ChildPageInfo :=
  ws.reverse.find? (fun w => w.id == id)

/-- The line loop of Go `markdownToBlocksWithChildPageWarnings`
(src/notion/sync.go:1498): walks the lines against the already-converted
block list, inserting a warning paragraph at each marker whose id is in
the warning map and otherwise copying the block at the running index. -/
def mdWarnAux (blocks : List Block) (wmap : Str → Option ChildPageInfo) :
    List Str → Nat → List Block
  | [], _ => []
  | l :: ls, blockIndex =>
    if l = [] then mdWarnAux blocks wmap ls blockIndex
    else if childPageMarker l then
      (match wmap (parseMarkerInner l).1 with
       | some w => [warningBlock w.title]
       | none => []) ++ mdWarnAux blocks wmap ls blockIndex
    else
      (if h : blockIndex < blocks.length then [blocks.get ⟨blockIndex, h⟩] else []) ++
        mdWarnAux blocks wmap ls (blockIndex + 1)

/-- Go `markdownToBlocksWithChildPageWarnings` (src/notion/sync.go:1481). -/
def markdownToBlocksWithChildPageWarnings (markdown : Str)
    (warnings : List ChildPageInfo) : List Block :=
  let blocks := MarkdownToBlocks markdown
  if warnings = [] then blocks
  else mdWarnAux blocks (warningLookup warnings) (splitLines markdown) 0

/-- An entry of `PushPage`'s `currentChildPages` slice
(src/notion/sync.go:1198): in the source both `ID` and `BlockID` are set
to the block id. -/
structure CurrentChildPage where
  id : Str
  title : Str
  position : Nat
  blockId : Str
deriving DecidableEq, Repr

/-- The `currentChildPages` collection loop of `PushPage`
(src/notion/sync.go:1204): every `child_page` block with its index. -/
def collectCurrentChildPagesAux : List Block → Nat → List CurrentChildPage
  | [], _ => []
  | b :: bs, i =>
    (match b with
     | .childPage id title => [⟨id, title, i, id⟩]
     | _ => []) ++ collectCurrentChildPagesAux bs (i + 1)

def collectCurrentChildPages (blocks : List Block) : List CurrentChildPage :=
  collectCurrentChildPagesAux blocks 0

/-- The tagged outcome of `PushPage`'s strategy decision
(src/notion/sync.go:1280): `simple` carries the arguments of
`pushPageSimple` (page id, new blocks, ids of the child pages to restore);
`preserve` carries the arguments of `pushPagePreservePositions`.  The two
executors are remote-effect sequences outside the modelled core. -/
inductive PushPlan
  | simple (pageID : Str) (blocks : List Block) (childPageIDs : List Str)
  | preserve (pageID : Str) (blocks : List Block) (currentBlocks : List Block)
      (currentChildPages : List CurrentChildPage)
      (markdownChildPages : List ChildPageInfo)
deriving DecidableEq, Repr

def PushPlan.isSimple : PushPlan → Bool
  | .simple _ _ _ => true
  | .preserve _ _ _ _ _ => false

/-- Go `PushPage` (src/notion/sync.go:1172, second snapshot) up to the
strategy decision: the file content is the first argument and the remote
tree fetched by `fetchAllBlocks` the second.  The frontmatter check
happens before any remote call, so an error return involves no remote
interaction; on success the decided strategy is returned as a `PushPlan`
instead of being executed. -/
def PushPageModel (content : Str) (currentBlocks : List Block) :
    Except Str PushPlan :=
  let pr := parseFrontmatter content
  if pr.1 = [] then Except.error "no notion_id found in frontmatter".toList
  else
    let ec := extractCommentsSection pr.2
    let childPagesInMarkdown := parseChildPageComments ec.1
    let currentChildPages := collectCurrentChildPages currentBlocks
    let fb : Bool × List ChildPageInfo :=
      match currentChildPages with
      | c0 :: _ =>
        if c0.position = 0 then
          match childPagesInMarkdown with
          | m0 :: _ => if 0 < m0.position then (true, [m0]) else (false, [])
          | [] => (true, [])
        else (false, [])
      | [] => (false, [])
    let blocks0 := markdownToBlocksWithChildPageWarnings ec.1 fb.2
    let blocks :=
      if ec.2 ≠ [] then
        blocks0 ++ [Block.divider,
          Block.heading2 [RT.text "Comments".toList Option.none Ann.plain]] ++
          MarkdownToBlocks ec.2
      else blocks0
    if fb.1 ∨ currentChildPages = [] then
      Except.ok (PushPlan.simple pr.1 blocks (currentChildPages.map (fun c => c.id)))
    else
      Except.ok (PushPlan.preserve pr.1 blocks currentBlocks currentChildPages
        childPagesInMarkdown)

/-- The positional line comparison of Go `DiffPage`
(src/notion/sync.go:1632): pair the two line lists up to the longer
length, padding the shorter side with empty lines. -/
def diffPairs : List Str → List Str → List (Str × Str)
  | [], ns => ns.map (fun n => ([], n))
  | l :: ls, [] => (l, []) :: diffPairs ls []
  | l :: ls, n :: ns => (l, n) :: diffPairs ls ns

theorem diffPairs_nil_cons (n : Str) (ns : List Str) :
    diffPairs [] (n :: ns) = ([], n) :: diffPairs [] ns := rfl

/-- The removed/added lines Go `DiffPage` writes for one position
(src/notion/sync.go:1641): nothing when equal, else `- remote` (when
non-empty) then `+ local` (when non-empty). -/
def diffChunk (p : Str × Str) : Str :=
  if p.1 ≠ p.2 then
    (if p.2 ≠ [] then '-' :: ' ' :: p.2 ++ ['\n'] else []) ++
      (if p.1 ≠ [] then '+' :: ' ' :: p.1 ++ ['\n'] else [])
  else []

/-- The line-comparison core of Go `DiffPage` (src/notion/sync.go:1620):
trim both canonical texts, split on newline, compare positionally; the
sentinel `No changes detected.` exactly when no position differs,
otherwise the header plus the removed/added report. -/
def diffReport (filePath pageID localMarkdown notionMarkdown : Str) : Str :=
  let localLines := splitOnChar '\n' (trimSpace localMarkdown)
  let notionLines := splitOnChar '\n' (trimSpace notionMarkdown)
  let pairs := diffPairs localLines notionLines
  if pairs.any (fun p => p.1 ≠ p.2) then
    "Comparing ".toList ++ filePath ++ " against Notion page ".toList ++ pageID ++
      "\n\n".toList ++ (pairs.map diffChunk).flatten
  else "No changes detected.".toList

/-- Go `DiffPage` (src/notion/sync.go:1602): frontmatter check (before
any remote call), then canonicalize the fetched remote tree with
`BlocksToMarkdown` and run the line comparison. -/
def DiffPageModel (filePath content : Str) (remoteBlocks : List Block) :
    Except Str Str :=
  let pr := parseFrontmatter content
  if pr.1 = [] then Except.error "no notion_id found in frontmatter".toList
  else Except.ok (diffReport filePath pr.1 pr.2 (BlocksToMarkdown remoteBlocks))

/-- The `lastNonChildPageIdx` loop of Go `PullPage`
(src/notion/sync.go:130, first snapshot): Go `int` starting at `-1`. -/
def lastNonChildPageIdxAux : List Block → Nat → Int → Int
  | [], _, acc => acc
  | b :: bs, i, acc =>
    lastNonChildPageIdxAux bs (i + 1)
      (if b.kind ≠ BKind.childPage then (i : Int) else acc)

def lastNonChildPageIdx (blocks : List Block) : Int :=
  lastNonChildPageIdxAux blocks 0 (-1)

/-- The trailing-classification loop of Go `PullPage`
(src/notion/sync.go:138): the key set of the `trailingChildPages` map —
ids of child-page blocks with non-empty id sitting at an index greater
than `lastNonChildPageIdx`. -/
def trailingChildPageIdsAux (lastIdx : Int) : List Block → Nat → List Str
  | [], _ => []
  | b :: bs, i =>
    (match b with
     | .childPage id _ => if lastIdx < (i : Int) ∧ id ≠ [] then [id] else []
     | _ => []) ++ trailingChildPageIdsAux lastIdx bs (i + 1)

def trailingChildPageIds (blocks : List Block) : List Str :=
  trailingChildPageIdsAux (lastNonChildPageIdx blocks) blocks 0

/-- The markdown `PullPage` renders for the fetched tree
(src/notion/sync.go:153): the encoder with the trailing-id set. -/
def pullMarkdown (blocks : List Block) : Str :=
  BlocksToMarkdownWithChildPages blocks
    (fun id => (trailingChildPageIds blocks).contains id)

/-! ## Claim C10: language mapping -/

theorem languageAliases_values_known :
    ∀ p ∈ languageAliases, p.2 ∈ notionKnownLanguages := by decide

/-- C10.  For every language hint on a fenced code block,
`mapLanguageToNotion` returns a member of the fixed supported-language
set; the empty hint maps to `plain text`; a lowercased-and-trimmed hint
that is neither an alias key nor a known language maps to `plain text`;
the aliases `js`, `py`, `bash` map to their canonical names; and matching
is case-insensitive after trimming whitespace (` JS ` and `PyThOn` hit
the same entries as `js` and `python`). -/
theorem mapLanguage_always_known :
    (∀ lang : Str, mapLanguageToNotion lang ∈ notionKnownLanguages) ∧
    mapLanguageToNotion [] = "plain text".toList ∧
    (∀ lang : Str,
      ((trimSpace lang).map Char.toLower ∉ languageAliases.map (fun p => p.1)) →
      ((trimSpace lang).map Char.toLower ∉ notionKnownLanguages) →
      mapLanguageToNotion lang = "plain text".toList) ∧
    mapLanguageToNotion "js".toList = "javascript".toList ∧
    mapLanguageToNotion "py".toList = "python".toList ∧
    mapLanguageToNotion "bash".toList = "shell".toList ∧
    mapLanguageToNotion " JS ".toList = "javascript".toList ∧
    mapLanguageToNotion "PyThOn".toList = "python".toList ∧
    mapLanguageToNotion "klingon".toList = "plain text".toList := by
  refine ⟨?_, by decide, ?_, by decide, by decide, by decide, by decide, by decide, by decide⟩
  · intro lang
    unfold mapLanguageToNotion
    by_cases h0 : (trimSpace lang).map Char.toLower = []
    · rw [if_pos h0]
      decide
    · rw [if_neg h0]
      cases hfind : (languageAliases.find? (fun p => p.1 == (trimSpace lang).map Char.toLower)) with
      | some p =>
        simp only [hfind, Option.map_some']
        exact languageAliases_values_known p (List.mem_of_find?_eq_some hfind)
      | none =>
        simp only [hfind, Option.map_none']
        cases hk : notionKnownLanguages.contains ((trimSpace lang).map Char.toLower) with
        | true =>
          rw [if_pos rfl]
          exact List.mem_of_elem_eq_true hk
        | false =>
          rw [if_neg (by simp)]
          decide
  · intro lang hna hnk
    unfold mapLanguageToNotion
    by_cases h0 : (trimSpace lang).map Char.toLower = []
    · rw [if_pos h0]
    · rw [if_neg h0]
      cases hfind : (languageAliases.find? (fun p => p.1 == (trimSpace lang).map Char.toLower)) with
      | some p =>
        exfalso
        have hmem := List.mem_of_find?_eq_some hfind
        have hpred := List.find?_some hfind
        have hp1 : p.1 = (trimSpace lang).map Char.toLower := by
          simpa using hpred
        exact hna (hp1 ▸ List.mem_map_of_mem (fun q => q.1) hmem)
      | none =>
        simp only [hfind, Option.map_none']
        cases hk : notionKnownLanguages.contains ((trimSpace lang).map Char.toLower) with
        | true => exact absurd (List.mem_of_elem_eq_true hk) hnk
        | false => rw [if_neg (by simp)]

/-- Witness for C10 at the unknown hint `klingon`. -/
theorem mapLanguage_always_known_witness :
    mapLanguageToNotion "klingon".toList = "plain text".toList :=
  mapLanguage_always_known.2.2.1 "klingon".toList (by decide) (by decide)

end NotionSync

namespace NotionSync

/-! ## Claim C5: numbered-list ordinal reset -/

/-- Invariant of the encoder loop state: whenever the previous block's
type tag is not `numbered_list_item`, the ordinal counter is 1. -/
def encInv (st : Nat × Option BKind) : Prop := st.2 ≠ some BKind.numbered → st.1 = 1

theorem encBlock_fst (trailing : Str → Bool) (st : Nat × Option BKind) (b : Block) :
    (encBlock trailing st b).2.1 =
      if b.kind = BKind.numbered then st.1 + 1
      else if st.2 = some BKind.numbered then 1 else st.1 := by
  by_cases hst : st.2 = some BKind.numbered <;>
    cases b <;>
    first
      | (simp [encBlock, Block.kind, hst]; done)
      | (rename_i id title
         by_cases hid : id = [] <;> by_cases ht : trailing id <;>
           simp [encBlock, Block.kind, hst, hid, ht])

theorem encBlock_snd_numbered {trailing : Str → Bool} {st : Nat × Option BKind} {b : Block}
    (hb : b.kind = BKind.numbered) :
    (encBlock trailing st b).2.2 = some BKind.numbered := by
  cases b <;> simp [Block.kind] at hb <;> simp [encBlock]

theorem encBlock_reset {trailing : Str → Bool} {st : Nat × Option BKind} {b : Block}
    (h : encInv st) (hb : b.kind ≠ BKind.numbered) :
    (encBlock trailing st b).2.1 = 1 := by
  rw [encBlock_fst, if_neg hb]
  by_cases hn : st.2 = some BKind.numbered
  · rw [if_pos hn]
  · rw [if_neg hn]
    exact h hn

theorem encBlock_inv {trailing : Str → Bool} {st : Nat × Option BKind} {b : Block}
    (h : encInv st) : encInv (encBlock trailing st b).2 := by
  intro hne
  by_cases hb : b.kind = BKind.numbered
  · exact absurd (encBlock_snd_numbered hb) hne
  · exact encBlock_reset h hb

theorem blocksToMarkdownRun_inv {trailing : Str → Bool} :
    ∀ (bs : List Block) (st : Nat × Option BKind), encInv st →
      encInv (blocksToMarkdownRun trailing st bs).2 := by
  intro bs
  induction bs with
  | nil => intro st h; simpa [blocksToMarkdownRun] using h
  | cons b bs ih =>
    intro st h
    simp only [blocksToMarkdownRun]
    exact ih _ (encBlock_inv h)

theorem blocksToMarkdownRun_append {trailing : Str → Bool} :
    ∀ (bs cs : List Block) (st : Nat × Option BKind),
      (blocksToMarkdownRun trailing st (bs ++ cs)).2 =
        (blocksToMarkdownRun trailing (blocksToMarkdownRun trailing st bs).2 cs).2 := by
  intro bs
  induction bs with
  | nil => intro cs st; simp [blocksToMarkdownRun]
  | cons b bs ih =>
    intro cs st
    simp only [List.cons_append, blocksToMarkdownRun]
    exact ih cs _

/-- C5.  The markup `1. a`, `2. b`, `- c`, `1. d` decodes and re-encodes
to exactly those ordinals — 1 and 2 before the bullet and 1 after it —
and in general the encoder's ordinal counter is 1 after processing any
block sequence ending in a block that is not a `numbered_list_item`
(because the counter is reset whenever the loop sees a block of another
type while the previous block was numbered, and it only grows on
consecutive numbered blocks). -/
theorem numbered_ordinal_reset :
    BlocksToMarkdown (MarkdownToBlocks "1. a\n2. b\n- c\n1. d".toList) =
      "1. a\n2. b\n- c\n1. d\n".toList ∧
    ∀ (trailing : Str → Bool) (bs : List Block) (b : Block),
      b.kind ≠ BKind.numbered →
      (blocksToMarkdownRun trailing (1, Option.none) (bs ++ [b])).2.1 = 1 := by
  constructor
  · decide
  · intro trailing bs b hb
    rw [blocksToMarkdownRun_append]
    have hinv : encInv (blocksToMarkdownRun trailing (1, Option.none) bs).2 :=
      blocksToMarkdownRun_inv bs _ (by intro; rfl)
    simp only [blocksToMarkdownRun]
    exact encBlock_reset hinv hb

/-- Witness for C5's hypothesis: a concrete non-numbered block after a
numbered run. -/
theorem numbered_ordinal_reset_witness :
    (Block.divider).kind ≠ BKind.numbered ∧
    (blocksToMarkdownRun (fun _ => false) (1, Option.none)
      ([Block.numbered [RT.text ['a'] Option.none Ann.plain]] ++ [Block.divider])).2.1 = 1 :=
  ⟨by decide, numbered_ordinal_reset.2 (fun _ => false)
    [Block.numbered [RT.text ['a'] Option.none Ann.plain]] Block.divider (by decide)⟩

end NotionSync

namespace NotionSync

/-! ## Claim C6: table decoding -/

theorem parseMarkdownTable_props {rs : List Str} {b : Block}
    (h : parseMarkdownTable rs = some b) :
    ∃ w rows, b = .table w true false rows ∧ rows ≠ [] ∧ ∀ r ∈ rows, r.length = w := by
  unfold parseMarkdownTable at h
  by_cases h2 : rs.length < 2
  · simp [h2] at h
  · rw [if_neg h2] at h
    set dataRows :=
      ((rs.filter (fun r => !(isSeparatorRow r))).map parseCells).filter
        (fun cs => !(cs.isEmpty)) with hdr
    by_cases he : dataRows.isEmpty
    · simp [he] at h
    · rw [if_neg (by simp [he])] at h
      simp only [Option.some_inj] at h
      refine ⟨dataRows.headI.length, _, h.symm, ?_, ?_⟩
      · intro habs
        rw [List.map_eq_nil_iff] at habs
        rw [habs] at he
        simp at he
      · intro r hr
        rw [List.mem_map] at hr
        obtain ⟨cells, _, hcells⟩ := hr
        subst hcells
        simp only [List.length_map, List.length_take, List.length_append,
          List.length_replicate]
        omega

theorem mdBlocksFuel_nil (f : Nat) : mdBlocksFuel f [] = [] := by cases f <;> rfl

theorem classifyLine_blockOne_not_table {line : Str} {b : Block}
    (h : classifyLine line = .blockOne b) : b.kind ≠ BKind.table := by
  delta classifyLine at h
  by_cases h1 : line = []
  · rw [if_pos h1] at h; simp at h
  rw [if_neg h1] at h
  by_cases h2 : childPageMarker line = true
  · rw [if_pos h2] at h; simp at h
  rw [if_neg h2] at h
  by_cases h3 : 2 < line.length ∧ line.getD 0 ' ' = '#' ∧ line.getD 1 ' ' = ' '
  · rw [if_pos h3] at h; injection h with h; subst h; simp [Block.kind]
  rw [if_neg h3] at h
  by_cases h4 : 3 < line.length ∧ line.take 3 = "## ".toList
  · rw [if_pos h4] at h; injection h with h; subst h; simp [Block.kind]
  rw [if_neg h4] at h
  by_cases h5 : 4 < line.length ∧ line.take 4 = "### ".toList
  · rw [if_pos h5] at h; injection h with h; subst h; simp [Block.kind]
  rw [if_neg h5] at h
  by_cases h6 : line = "---".toList
  · rw [if_pos h6] at h; injection h with h; subst h; simp [Block.kind]
  rw [if_neg h6] at h
  by_cases h7 : 3 ≤ line.length ∧ line.take 3 = "```".toList
  · rw [if_pos h7] at h; simp at h
  rw [if_neg h7] at h
  by_cases h8 : 5 < line.length ∧ (line.take 5 = "- [ ]".toList ∨ line.take 5 = "- [x]".toList)
  · rw [if_pos h8] at h; injection h with h; subst h; simp [Block.kind]
  rw [if_neg h8] at h
  by_cases h9 : 2 < line.length ∧ line.take 2 = "- ".toList
  · rw [if_pos h9] at h; injection h with h; subst h; simp [Block.kind]
  rw [if_neg h9] at h
  cases hns : numberedSplit line with
  | some content =>
    rw [hns] at h
    injection h with h; subst h; simp [Block.kind]
  | none =>
    rw [hns] at h
    simp only at h
    by_cases h10 : 2 < line.length ∧ line.take 2 = "> ".toList
    · rw [if_pos h10] at h; injection h with h; subst h; simp [Block.kind]
    rw [if_neg h10] at h
    by_cases h11 : line.headI = '|'
    · rw [if_pos h11] at h; simp at h
    rw [if_neg h11] at h
    injection h with h; subst h; simp [Block.kind]

theorem mdBlocksFuel_table_wf :
    ∀ (fuel : Nat) (lines : List Str), lines.length ≤ fuel →
      ∀ b ∈ mdBlocksFuel fuel lines, ∀ w hch hrh rows, b = .table w hch hrh rows →
        hch = true ∧ hrh = false ∧ rows ≠ [] ∧ ∀ r ∈ rows, r.length = w := by
  intro fuel
  induction fuel with
  | zero =>
    intro lines hlen b hmem
    have : lines = [] := List.length_eq_zero.mp (Nat.le_zero.mp hlen)
    subst this
    rw [mdBlocksFuel_nil] at hmem
    exact absurd hmem (List.not_mem_nil b)
  | succ f ih =>
    intro lines hlen b hmem w hch hrh rows hb
    subst hb
    cases lines with
    | nil =>
      rw [mdBlocksFuel_nil] at hmem
      exact absurd hmem (List.not_mem_nil _)
    | cons line rest =>
      have hrest : rest.length ≤ f := by simp at hlen; omega
      rw [mdBlocksFuel] at hmem
      cases hcl : classifyLine line with
      | skip =>
        rw [hcl] at hmem
        exact ih rest hrest _ hmem w hch hrh rows rfl
      | blockOne b0 =>
        rw [hcl] at hmem
        rcases List.mem_cons.mp hmem with h | h
        · have hnt := classifyLine_blockOne_not_table hcl
          rw [← h] at hnt
          simp [Block.kind] at hnt
        · exact ih rest hrest _ h w hch hrh rows rfl
      | fence lang =>
        rw [hcl] at hmem
        rcases List.mem_cons.mp hmem with h | h
        · exact absurd h (by simp)
        · exact ih (takeCodeLines rest).2
            (le_trans (takeCodeLines_rest_length rest) hrest) _ h w hch hrh rows rfl
      | tableStart =>
        rw [hcl] at hmem
        have hmem2 : Block.table w hch hrh rows ∈
            (match parseMarkdownTable (line :: (takeTableLines rest).1) with
             | some b => b :: mdBlocksFuel f (takeTableLines rest).2
             | none => mdBlocksFuel f (takeTableLines rest).2) := hmem
        cases htb : parseMarkdownTable (line :: (takeTableLines rest).1) with
        | some tb =>
          rw [htb] at hmem2
          rcases List.mem_cons.mp hmem2 with h | h
          · obtain ⟨w2, rows2, hbt, hne, hlen2⟩ := parseMarkdownTable_props htb
            rw [hbt] at h
            injection h.symm with e1 e2 e3 e4
            subst e1; subst e2; subst e3; subst e4
            exact ⟨rfl, rfl, hne, hlen2⟩
          · exact ih (takeTableLines rest).2
              (le_trans (takeTableLines_rest_length rest) hrest) _ h w hch hrh rows rfl
        | none =>
          rw [htb] at hmem2
          exact ih (takeTableLines rest).2
            (le_trans (takeTableLines_rest_length rest) hrest) _ hmem2 w hch hrh rows rfl

/-- C6.  The three-line markup table decodes to exactly one `table` block
with `table_width` 2, a column header, header row `Name`,`Status` and one
data row `Task 1`,`Done`; and in general every `table` block produced by
`MarkdownToBlocks` has at least one row and all its rows share the
block's column count (short rows are right-padded with empty cells, the
separator row of dashes is discarded, and the width is fixed by the
first data row). -/
theorem table_decode :
    MarkdownToBlocks "| Name | Status |\n| --- | --- |\n| Task 1 | Done |".toList =
      [Block.table 2 true false
        [[[RT.text "Name".toList Option.none Ann.plain],
          [RT.text "Status".toList Option.none Ann.plain]],
         [[RT.text "Task 1".toList Option.none Ann.plain],
          [RT.text "Done".toList Option.none Ann.plain]]]] ∧
    ∀ (markdown : Str), ∀ b ∈ MarkdownToBlocks markdown,
      ∀ w hch hrh rows, b = .table w hch hrh rows →
        hch = true ∧ hrh = false ∧ rows ≠ [] ∧ ∀ r ∈ rows, r.length = w := by
  constructor
  · decide
  · intro markdown b hmem w hch hrh rows hb
    exact mdBlocksFuel_table_wf (splitLines markdown).length (splitLines markdown)
      le_rfl b hmem w hch hrh rows hb

/-- Witness for C6 at the decoded three-line table itself. -/
theorem table_decode_witness :
    true = true ∧ false = false ∧
    ([[[RT.text "Name".toList Option.none Ann.plain],
       [RT.text "Status".toList Option.none Ann.plain]],
      [[RT.text "Task 1".toList Option.none Ann.plain],
       [RT.text "Done".toList Option.none Ann.plain]]] :
        List (List (List RT))) ≠ [] ∧
    ∀ r ∈ ([[[RT.text "Name".toList Option.none Ann.plain],
       [RT.text "Status".toList Option.none Ann.plain]],
      [[RT.text "Task 1".toList Option.none Ann.plain],
       [RT.text "Done".toList Option.none Ann.plain]]] :
        List (List (List RT))), r.length = 2 :=
  table_decode.2 "| Name | Status |\n| --- | --- |\n| Task 1 | Done |".toList
    (Block.table 2 true false
      [[[RT.text "Name".toList Option.none Ann.plain],
        [RT.text "Status".toList Option.none Ann.plain]],
       [[RT.text "Task 1".toList Option.none Ann.plain],
        [RT.text "Done".toList Option.none Ann.plain]]])
    (by decide) 2 true false
    [[[RT.text "Name".toList Option.none Ann.plain],
      [RT.text "Status".toList Option.none Ann.plain]],
     [[RT.text "Task 1".toList Option.none Ann.plain],
      [RT.text "Done".toList Option.none Ann.plain]]] rfl

end NotionSync

namespace NotionSync

/-! ## Claim C3: the diff engine -/

theorem splitOnChar_ne_nil (c : Char) (s : Str) : splitOnChar c s ≠ [] := by
  cases s with
  | nil => simp [splitOnChar]
  | cons x rest =>
    by_cases hx : x = c
    · simp [splitOnChar, hx]
    · simp only [splitOnChar, if_neg hx]
      cases hs : splitOnChar c rest <;> simp

theorem joinWith_splitOnChar (c : Char) (s : Str) :
    joinWith [c] (splitOnChar c s) = s := by
  induction s with
  | nil => simp [splitOnChar, joinWith]
  | cons x rest ih =>
    by_cases hx : x = c
    · subst hx
      rw [splitOnChar, if_pos rfl]
      cases hs : splitOnChar x rest with
      | nil => exact absurd hs (splitOnChar_ne_nil x rest)
      | cons y ys =>
        rw [hs] at ih
        simp [joinWith, ih]
    · rw [splitOnChar, if_neg hx]
      cases hs : splitOnChar c rest with
      | nil => exact absurd hs (splitOnChar_ne_nil c rest)
      | cons y ys =>
        rw [hs] at ih
        cases ys with
        | nil => simpa [joinWith] using ih
        | cons z zs => simpa [joinWith] using ih

theorem joinWith_append_single (c : Char) :
    ∀ (l : List Str) (x : Str), l ≠ [] →
      joinWith [c] (l ++ [x]) = joinWith [c] l ++ c :: x := by
  intro l
  induction l with
  | nil => intro x h; exact absurd rfl h
  | cons y ys ih =>
    intro x _
    cases ys with
    | nil => simp [joinWith]
    | cons z zs =>
      have hrec := ih x (by simp)
      simp only [List.cons_append, List.append_eq, joinWith] at hrec ⊢
      rw [hrec]
      simp

theorem head_dropWhile_not {p : Char → Bool} :
    ∀ {l : Str} {a : Char}, (l.dropWhile p).head? = some a → p a = false := by
  intro l
  induction l with
  | nil => intro a h; simp [List.dropWhile] at h
  | cons c rest ih =>
    intro a h
    by_cases hc : p c
    · rw [List.dropWhile_cons_of_pos hc] at h
      exact ih h
    · rw [List.dropWhile_cons_of_neg hc] at h
      simp at h
      subst h
      simpa using hc

theorem trimSpace_getLast_not_space {t : Str} {ch : Char}
    (h : (trimSpace t).getLast? = some ch) : isSpaceChar ch = false := by
  unfold trimSpace at h
  rw [List.getLast?_reverse] at h
  exact head_dropWhile_not h

end NotionSync

namespace NotionSync

theorem diffPairs_self_any_false :
    ∀ xs : List Str, (diffPairs xs xs).any (fun p => p.1 ≠ p.2) = false := by
  intro xs
  induction xs with
  | nil => simp [diffPairs]
  | cons l ls ih => simpa [diffPairs] using ih

theorem diffPairs_eq_structure : ∀ xs ys : List Str,
    (diffPairs xs ys).any (fun p => p.1 ≠ p.2) = false →
    xs = ys ∨ (∃ k, ys = xs ++ List.replicate (k + 1) ([] : Str)) ∨
      (∃ k, xs = ys ++ List.replicate (k + 1) ([] : Str)) := by
  intro xs
  induction xs with
  | nil =>
    intro ys
    induction ys with
    | nil => intro _; exact Or.inl rfl
    | cons n ns ihn =>
      intro h
      simp only [diffPairs_nil_cons, List.any_cons, Bool.or_eq_false_iff] at h
      obtain ⟨h1, h2⟩ := h
      have hn : n = [] := by simpa using h1.symm
      subst hn
      rcases ihn h2 with h3 | h3 | h3
      · exact Or.inr (Or.inl ⟨0, by simp [← h3]⟩)
      · obtain ⟨k, hk⟩ := h3
        exact Or.inr (Or.inl ⟨k + 1, by
          simp only [List.nil_append] at hk ⊢
          simp [hk, List.replicate_succ]⟩)
      · obtain ⟨k, hk⟩ := h3
        simp at hk
  | cons l ls ih =>
    intro ys
    cases ys with
    | nil =>
      intro h
      simp only [diffPairs, List.any_cons, Bool.or_eq_false_iff] at h
      obtain ⟨h1, h2⟩ := h
      have hl : l = [] := by simpa using h1
      subst hl
      rcases ih [] h2 with h3 | h3 | h3
      · exact Or.inr (Or.inr ⟨0, by simp [h3]⟩)
      · obtain ⟨k, hk⟩ := h3
        simp at hk
      · obtain ⟨k, hk⟩ := h3
        exact Or.inr (Or.inr ⟨k + 1, by
          simp only [List.nil_append] at hk ⊢
          simp [hk, List.replicate_succ]⟩)
    | cons n ns =>
      intro h
      simp only [diffPairs, List.any_cons, Bool.or_eq_false_iff] at h
      obtain ⟨h1, h2⟩ := h
      have hl : l = n := by simpa using h1
      subst hl
      rcases ih ns h2 with h3 | h3 | h3
      · exact Or.inl (by rw [h3])
      · obtain ⟨k, hk⟩ := h3
        exact Or.inr (Or.inl ⟨k, by rw [hk]; rfl⟩)
      · obtain ⟨k, hk⟩ := h3
        exact Or.inr (Or.inr ⟨k, by rw [hk]; rfl⟩)

theorem trim_of_split_extended {t : Str} {xs : List Str} {k : Nat}
    (h : splitOnChar '\n' (trimSpace t) = xs ++ List.replicate (k + 1) ([] : Str))
    (hxs : xs ≠ [] ∨ 0 < k) : False := by
  have hjoin : trimSpace t = joinWith ['\n'] (xs ++ List.replicate (k + 1) ([] : Str)) := by
    rw [← h, joinWith_splitOnChar]
  rw [List.replicate_succ', ← List.append_assoc] at hjoin
  have hne : xs ++ List.replicate k ([] : Str) ≠ [] := by
    rcases hxs with h1 | h1
    · simp [h1]
    · simp
      intro h2
      omega
  rw [joinWith_append_single '\n' _ _ hne] at hjoin
  have hlast : (trimSpace t).getLast? = some '\n' := by
    rw [hjoin]
    exact List.getLast?_concat _
  have := trimSpace_getLast_not_space hlast
  simp [isSpaceChar] at this

end NotionSync

namespace NotionSync

/-- C3.  The diff is a positional line comparison of the two trimmed
canonical texts: for local `A\nB\nC` against remote `A\nX\nC` the report
is the header followed by the removed line `- X` and then the added line
`+ B`; and the `No changes detected.` sentinel is returned exactly when
the two canonical texts are identical after trimming surrounding
whitespace. -/
theorem diff_positional_comparison :
    diffReport "f".toList "p".toList "A\nB\nC".toList "A\nX\nC".toList =
      "Comparing f against Notion page p\n\n- X\n+ B\n".toList ∧
    ∀ (filePath pageID localMarkdown notionMarkdown : Str),
      (diffReport filePath pageID localMarkdown notionMarkdown =
        "No changes detected.".toList ↔
      trimSpace localMarkdown = trimSpace notionMarkdown) := by
  constructor
  · decide
  · intro fp pid l n
    constructor
    · intro hsent
      rw [diffReport] at hsent
      by_cases hany : ((diffPairs (splitOnChar '\n' (trimSpace l))
          (splitOnChar '\n' (trimSpace n))).any (fun p => p.1 ≠ p.2)) = true
      · rw [if_pos hany] at hsent
        have hC : ("Comparing ".toList ++ fp ++ " against Notion page ".toList ++ pid ++
            "\n\n".toList ++
            ((diffPairs (splitOnChar '\n' (trimSpace l))
              (splitOnChar '\n' (trimSpace n))).map diffChunk).flatten).head? = some 'C' := by
          rfl
        rw [hsent] at hC
        simp at hC
      · rw [if_neg hany] at hsent
        rw [Bool.not_eq_true] at hany
        rcases diffPairs_eq_structure _ _ hany with he | he | he
        · have h1 := joinWith_splitOnChar '\n' (trimSpace l)
          have h2 := joinWith_splitOnChar '\n' (trimSpace n)
          rw [← h1, ← h2, he]
        · obtain ⟨k, hk⟩ := he
          exact absurd hk (fun hk => trim_of_split_extended hk
            (Or.inl (splitOnChar_ne_nil '\n' (trimSpace l))))
        · obtain ⟨k, hk⟩ := he
          exact absurd hk (fun hk => trim_of_split_extended hk
            (Or.inl (splitOnChar_ne_nil '\n' (trimSpace n))))
    · intro heq
      rw [diffReport, heq]
      rw [if_neg (by rw [diffPairs_self_any_false]; simp)]

end NotionSync

namespace NotionSync

/-! ## Claim C8: missing remote id is a terminal error -/

/-- C8.  For every local file content whose frontmatter yields no
`notion_id` — a missing `---` header, an unterminated header, or a header
without the key all make `parseFrontmatter` return an empty id — both
push and diff fail immediately with the `no notion_id found in
frontmatter` error, and the result does not depend on the remote tree
(the model receives the would-be fetch result as an argument and never
uses it, mirroring the source where the check precedes the first remote
call), so no remote call and in particular no remote mutation happens.
The id is never defaulted: the error is the only outcome. -/
theorem missing_notion_id_fatal :
    (∀ (content : Str) (remoteBlocks : List Block) (filePath : Str),
      (parseFrontmatter content).1 = [] →
      PushPageModel content remoteBlocks =
        Except.error "no notion_id found in frontmatter".toList ∧
      DiffPageModel filePath content remoteBlocks =
        Except.error "no notion_id found in frontmatter".toList) ∧
    (∀ content : Str, ¬ ("---\n".toList).isPrefixOf content →
      (parseFrontmatter content).1 = []) ∧
    (∀ content : Str, subIndex "\n---\n".toList (content.drop 4) = none →
      (parseFrontmatter content).1 = []) := by
  refine ⟨?_, ?_, ?_⟩
  · intro content remoteBlocks filePath h
    constructor
    · rw [PushPageModel, if_pos h]
    · rw [DiffPageModel, if_pos h]
  · intro content h
    rw [parseFrontmatter, if_neg h]
  · intro content h
    rw [parseFrontmatter]
    by_cases hp : ("---\n".toList).isPrefixOf content
    · rw [if_pos hp, h]
    · rw [if_neg hp]

/-- Witness for C8 at a concrete file content with no frontmatter. -/
theorem missing_notion_id_fatal_witness :
    PushPageModel "hello".toList [] =
      Except.error "no notion_id found in frontmatter".toList ∧
    DiffPageModel "f".toList "hello".toList [] =
      Except.error "no notion_id found in frontmatter".toList :=
  missing_notion_id_fatal.1 "hello".toList [] "f".toList (by decide)

end NotionSync

namespace NotionSync

/-! ## Claim C7: frontmatter round trip -/

/-- The frontmatter body as a newline-terminated line sequence. -/
def lineJoin (lines : List Str) : Str := (lines.map (fun l => l ++ ['\n'])).flatten

theorem subIndex_nl_append {p' : Str} (l : Str) (hl : '\n' ∉ l) (s : Str) :
    subIndex ('\n' :: p') (l ++ s) = (subIndex ('\n' :: p') s).map (· + l.length) := by
  induction l with
  | nil =>
    simp only [List.nil_append, List.length_nil]
    cases subIndex ('\n' :: p') s <;> simp
  | cons c l ih =>
    have hc : c ≠ '\n' := fun h => hl (h ▸ List.mem_cons_self c l)
    have hl' : '\n' ∉ l := fun h => hl (List.mem_cons_of_mem c h)
    have hpf : (('\n' :: p').isPrefixOf (c :: (l ++ s))) = false := by
      rw [show (('\n' :: p').isPrefixOf (c :: (l ++ s))) =
        (('\n' == c) && p'.isPrefixOf (l ++ s)) from rfl]
      rw [beq_false_of_ne (Ne.symm hc)]
      rfl
    rw [List.cons_append, subIndex, if_neg (by rw [hpf]; simp)]
    rw [ih hl']
    cases subIndex ('\n' :: p') s <;> simp <;> omega

theorem subIndex_nl_cons_nomatch {p' s : Str} (h : p'.isPrefixOf s = false) :
    subIndex ('\n' :: p') ('\n' :: s) = (subIndex ('\n' :: p') s).map (· + 1) := by
  rw [subIndex, if_neg (by simp [List.isPrefixOf, h])]

theorem subIndex_nl_cons_match {p' s : Str} (h : p'.isPrefixOf s = true) :
    subIndex ('\n' :: p') ('\n' :: s) = some 0 := by
  rw [subIndex, if_pos (by simp [List.isPrefixOf, h])]

theorem isPrefixOf_self_append (l s : Str) : l.isPrefixOf (l ++ s) = true := by
  rw [List.isPrefixOf_iff_prefix]
  exact List.prefix_append l s

theorem subIndex_terminator :
    ∀ (lines : List Str) (md : Str), lines ≠ [] →
      (∀ l ∈ lines, '\n' ∉ l) →
      (∀ l ∈ lines, l.headI ≠ '-' ∧ l ≠ []) →
      subIndex "\n---\n".toList (lineJoin lines ++ "---\n\n".toList ++ md) =
        some ((lineJoin lines).length - 1) := by
  intro lines
  induction lines with
  | nil => intro md h; exact absurd rfl h
  | cons l ls ih =>
    intro md _ hnl hhd
    have hl : '\n' ∉ l := hnl l (List.mem_cons_self l ls)
    cases ls with
    | nil =>
      have : lineJoin [l] ++ "---\n\n".toList ++ md =
          l ++ ('\n' :: ("---\n".toList ++ ('\n' :: md))) := by
        simp [lineJoin]
      rw [this]
      rw [show ("\n---\n".toList : Str) = '\n' :: "---\n".toList from rfl]
      rw [subIndex_nl_append l hl]
      rw [subIndex_nl_cons_match (isPrefixOf_self_append _ _)]
      simp [lineJoin]
    | cons l2 ls2 =>
      have hl2 := hhd l2 (by simp)
      have hjoin : lineJoin (l :: l2 :: ls2) ++ "---\n\n".toList ++ md =
          l ++ ('\n' :: (lineJoin (l2 :: ls2) ++ "---\n\n".toList ++ md)) := by
        simp [lineJoin]
      rw [hjoin]
      rw [show ("\n---\n".toList : Str) = '\n' :: "---\n".toList from rfl]
      rw [subIndex_nl_append l hl]
      have hnp : ("---\n".toList).isPrefixOf
          (lineJoin (l2 :: ls2) ++ "---\n\n".toList ++ md) = false := by
        obtain ⟨hh, hne⟩ := hl2
        cases l2 with
        | nil => exact absurd rfl hne
        | cons c2 cs2 =>
          simp only [List.headI] at hh
          have hshape : lineJoin ((c2 :: cs2) :: ls2) ++ "---\n\n".toList ++ md =
              c2 :: (cs2 ++ ['\n'] ++ (lineJoin ls2 ++ "---\n\n".toList ++ md)) := by
            simp [lineJoin]
          rw [hshape]
          rw [show (("---\n".toList).isPrefixOf
            (c2 :: (cs2 ++ ['\n'] ++ (lineJoin ls2 ++ "---\n\n".toList ++ md)))) =
            (('-' == c2) && ("--\n".toList).isPrefixOf
              (cs2 ++ ['\n'] ++ (lineJoin ls2 ++ "---\n\n".toList ++ md))) from rfl]
          rw [beq_false_of_ne (Ne.symm hh)]
          rfl
      rw [subIndex_nl_cons_nomatch hnp]
      have ih' := ih md (by simp) (fun x hx => hnl x (List.mem_cons_of_mem l hx))
        (fun x hx => hhd x (List.mem_cons_of_mem l hx))
      rw [show ("\n---\n".toList : Str) = '\n' :: "---\n".toList from rfl] at ih'
      rw [ih']
      have hlen : 1 ≤ (lineJoin (l2 :: ls2)).length := by
        simp [lineJoin]
        omega
      simp [lineJoin]
      omega

end NotionSync

namespace NotionSync

theorem splitOnChar_no_sep {c : Char} : ∀ {s : Str}, c ∉ s → splitOnChar c s = [s] := by
  intro s
  induction s with
  | nil => intro _; rfl
  | cons x rest ih =>
    intro h
    have hx : x ≠ c := fun he => h (he ▸ List.mem_cons_self x rest)
    rw [splitOnChar, if_neg hx, ih (fun hm => h (List.mem_cons_of_mem x hm))]

theorem splitOnChar_append_sep {c : Char} :
    ∀ {l : Str}, c ∉ l → ∀ s : Str, splitOnChar c (l ++ c :: s) = l :: splitOnChar c s := by
  intro l
  induction l with
  | nil => intro _ s; simp [splitOnChar]
  | cons x rest ih =>
    intro h s
    have hx : x ≠ c := fun he => h (he ▸ List.mem_cons_self x rest)
    rw [List.cons_append, splitOnChar, if_neg hx,
      ih (fun hm => h (List.mem_cons_of_mem x hm)) s]

theorem splitOnChar_joinWith (c : Char) :
    ∀ lines : List Str, lines ≠ [] → (∀ l ∈ lines, c ∉ l) →
      splitOnChar c (joinWith [c] lines) = lines := by
  intro lines
  induction lines with
  | nil => intro h; exact absurd rfl h
  | cons l ls ih =>
    intro _ hnl
    cases ls with
    | nil =>
      rw [joinWith]
      exact splitOnChar_no_sep (hnl l (List.mem_cons_self l []))
    | cons l2 ls2 =>
      rw [joinWith]
      rw [show (l ++ [c] ++ joinWith [c] (l2 :: ls2)) =
        (l ++ c :: joinWith [c] (l2 :: ls2)) by simp]
      rw [splitOnChar_append_sep (hnl l (List.mem_cons_self l _)) _]
      rw [ih (by simp) (fun x hx => hnl x (List.mem_cons_of_mem l hx))]

theorem lineJoin_eq_joinWith :
    ∀ lines : List Str, lines ≠ [] →
      lineJoin lines = joinWith ['\n'] lines ++ ['\n'] := by
  intro lines
  induction lines with
  | nil => intro h; exact absurd rfl h
  | cons l ls ih =>
    intro _
    cases ls with
    | nil => simp [lineJoin, joinWith]
    | cons l2 ls2 =>
      rw [joinWith]
      have := ih (by simp)
      simp only [lineJoin, List.map_cons, List.flatten_cons] at this ⊢
      rw [this]
      simp

end NotionSync

namespace NotionSync

theorem trimSpace_space_cons {s : Str} (h : trimSpace s = s) :
    trimSpace (' ' :: s) = s := by
  unfold trimSpace at h ⊢
  rw [List.dropWhile_cons_of_pos (by rfl)]
  exact h

theorem fmFullLoop_other (l : Str) {ls : List Str} {st : Str × List Str × Bool}
    (h1 : ("notion_id:".toList).isPrefixOf l = false)
    (h2 : ("child_pages:".toList).isPrefixOf l = false)
    (h3 : ("  ".toList).isPrefixOf l = false)
    (h4 : ("  - ".toList).isPrefixOf l = false) :
    fmFullLoop (l :: ls) st = fmFullLoop ls (st.1, st.2.1, false) := by
  obtain ⟨p, cps, b⟩ := st
  rw [fmFullLoop]
  rw [if_neg (by rw [h1]; simp), if_neg (by rw [h2]; simp),
    if_neg (by rw [h4]; simp), if_pos (by rw [h3]; simp)]

theorem fmFullLoop_cpids :
    ∀ (cps : List Str) (ls : List Str) (p0 : Str) (acc : List Str),
      (∀ c ∈ cps, trimSpace c = c ∧ c ≠ []) →
      fmFullLoop ((cps.map (fun c => "  - ".toList ++ c)) ++ ls) (p0, acc, true) =
        fmFullLoop ls (p0, acc ++ cps, true) := by
  intro cps
  induction cps with
  | nil => intro ls p0 acc _; simp
  | cons c cs ih =>
    intro ls p0 acc hc
    obtain ⟨htrim, hne⟩ := hc c (List.mem_cons_self c cs)
    simp only [List.map_cons, List.cons_append]
    rw [fmFullLoop]
    rw [if_neg (by rw [show (("notion_id:".toList).isPrefixOf ("  - ".toList ++ c)) =
      (('n' == ' ') && ("otion_id:".toList).isPrefixOf ("- ".toList ++ c)) from rfl]; simp)]
    rw [if_neg (by rw [show (("child_pages:".toList).isPrefixOf ("  - ".toList ++ c)) =
      (('c' == ' ') && ("hild_pages:".toList).isPrefixOf ("- ".toList ++ c)) from rfl]; simp)]
    rw [if_pos (by exact ⟨rfl, by rw [isPrefixOf_self_append]⟩)]
    show fmFullLoop (List.map (fun c => "  - ".toList ++ c) cs ++ ls)
      (p0, if trimSpace (trimPfx "  - ".toList ("  - ".toList ++ c)) = [] then acc
        else acc ++ [trimSpace (trimPfx "  - ".toList ("  - ".toList ++ c))], true) =
      fmFullLoop ls (p0, acc ++ c :: cs, true)
    rw [show trimPfx "  - ".toList ("  - ".toList ++ c) = c by
      rw [trimPfx, if_pos (isPrefixOf_self_append _ _)]
      simp]
    rw [htrim, if_neg hne]
    rw [ih ls p0 (acc ++ [c]) (fun x hx => hc x (List.mem_cons_of_mem c hx))]
    simp

theorem renderEq (pid title ts md : Str) (cpids : List Str) :
    renderPullContent pid title ts cpids md =
      "---\n".toList ++
        (lineJoin (("notion_id: ".toList ++ pid) :: ("title: ".toList ++ title) ::
            ("pulled_at: ".toList ++ ts) ::
            (if cpids = [] then [] else
              "child_pages:".toList :: cpids.map (fun c => "  - ".toList ++ c))) ++
          "---\n\n".toList ++ md) := by
  by_cases hcp : cpids = []
  · subst hcp
    simp [renderPullContent, lineJoin]
  · rw [renderPullContent, if_neg hcp, if_neg hcp]
    simp only [lineJoin, List.map_cons, List.flatten_cons, List.map_map]
    have hmap : (List.map ((fun l => l ++ ['\n']) ∘ fun c => "  - ".toList ++ c) cpids) =
        List.map (fun c => "  - ".toList ++ c ++ ['\n']) cpids := by
      apply List.map_congr_left
      intro c _
      simp
    rw [hmap]
    simp

theorem headI_ne_of_cons {c d : Char} {x : Str} (l : Str) (h : l = c :: x) (hne : c ≠ d) :
    l.headI ≠ d ∧ l ≠ [] := by
  subst h
  exact ⟨by simpa [List.headI] using hne, by simp⟩

/-- C7. Frontmatter round trip: rendering a pulled document header for page id pid,
title, timestamp and child-page id list cpids, then parsing it back with
parseFrontmatterFull, returns the same page id and the same child-page id list in the
same order (and the remainder of the content after the closing delimiter), for any
well-formed field values (no embedded newlines, ids already trimmed and nonempty). -/
theorem frontmatter_roundtrip (pid title ts md : Str) (cpids : List Str)
    (hp : '\n' ∉ pid) (hpt : trimSpace pid = pid)
    (ht : '\n' ∉ title) (hts : '\n' ∉ ts)
    (hcp : ∀ c ∈ cpids, '\n' ∉ c ∧ trimSpace c = c ∧ c ≠ []) :
    parseFrontmatterFull (renderPullContent pid title ts cpids md) =
      (pid, cpids, '\n' :: md) := by
  set lines := ("notion_id: ".toList ++ pid) :: ("title: ".toList ++ title) ::
      ("pulled_at: ".toList ++ ts) ::
      (if cpids = [] then [] else
        "child_pages:".toList :: cpids.map (fun c => "  - ".toList ++ c)) with hlines
  have hnl : ∀ l ∈ lines, '\n' ∉ l := by
    intro l hm
    rw [hlines] at hm
    simp only [List.mem_cons] at hm
    rcases hm with h | h | h | h
    · subst h
      simp only [List.mem_append]
      rintro (hx | hx)
      · revert hx; decide
      · exact hp hx
    · subst h
      simp only [List.mem_append]
      rintro (hx | hx)
      · revert hx; decide
      · exact ht hx
    · subst h
      simp only [List.mem_append]
      rintro (hx | hx)
      · revert hx; decide
      · exact hts hx
    · by_cases hcpn : cpids = []
      · rw [if_pos hcpn] at h; simp at h
      · rw [if_neg hcpn] at h
        simp only [List.mem_cons] at h
        rcases h with h | h
        · subst h; decide
        · rw [List.mem_map] at h
          obtain ⟨c, hcmem, hceq⟩ := h
          subst hceq
          simp only [List.mem_append]
          rintro (hx | hx)
          · revert hx; decide
          · exact (hcp c hcmem).1 hx
  have hhd : ∀ l ∈ lines, l.headI ≠ '-' ∧ l ≠ [] := by
    intro l hm
    rw [hlines] at hm
    simp only [List.mem_cons] at hm
    rcases hm with h | h | h | h
    · exact headI_ne_of_cons l
        (show l = 'n' :: ("otion_id: ".toList ++ pid) from by rw [h]; rfl) (by decide)
    · exact headI_ne_of_cons l
        (show l = 't' :: ("itle: ".toList ++ title) from by rw [h]; rfl) (by decide)
    · exact headI_ne_of_cons l
        (show l = 'p' :: ("ulled_at: ".toList ++ ts) from by rw [h]; rfl) (by decide)
    · by_cases hcpn : cpids = []
      · rw [if_pos hcpn] at h; simp at h
      · rw [if_neg hcpn] at h
        simp only [List.mem_cons] at h
        rcases h with h | h
        · exact headI_ne_of_cons l
            (show l = 'c' :: "hild_pages:".toList from by rw [h]; rfl) (by decide)
        · rw [List.mem_map] at h
          obtain ⟨c, hcmem, hceq⟩ := h
          exact headI_ne_of_cons l
            (show l = ' ' :: (" - ".toList ++ c) from by rw [← hceq]; rfl) (by decide)
  have hlne : lines ≠ [] := by rw [hlines]; simp
  rw [renderEq]
  rw [parseFrontmatterFull]
  rw [if_pos (isPrefixOf_self_append _ _)]
  rw [show ("---\n".toList ++ (lineJoin lines ++ "---\n\n".toList ++ md)).drop 4 =
    lineJoin lines ++ "---\n\n".toList ++ md from
      by rw [show (4 : Nat) = ("---\n".toList).length from rfl, List.drop_left]]
  rw [subIndex_terminator lines md hlne hnl hhd]
  have hJ : lineJoin lines = joinWith ['\n'] lines ++ ['\n'] := lineJoin_eq_joinWith lines hlne
  have hLlen : (lineJoin lines).length = (joinWith ['\n'] lines).length + 1 := by
    rw [hJ]; simp
  have htake : (lineJoin lines ++ "---\n\n".toList ++ md).take ((lineJoin lines).length - 1) =
      joinWith ['\n'] lines := by
    rw [hLlen, hJ]
    rw [show ((joinWith ['\n'] lines ++ ['\n']) ++ "---\n\n".toList ++ md) =
      (joinWith ['\n'] lines ++ ('\n' :: "---\n\n".toList ++ md)) from by simp]
    rw [Nat.add_sub_cancel]
    rw [show (joinWith ['\n'] lines).length =
      (joinWith ['\n'] lines).length + 0 from rfl]
    rw [List.take_append]
    simp
  have hdrop : (lineJoin lines ++ "---\n\n".toList ++ md).drop
      ((lineJoin lines).length - 1 + 5) = '\n' :: md := by
    rw [show (lineJoin lines ++ "---\n\n".toList ++ md) =
      ((lineJoin lines ++ "---\n".toList) ++ ('\n' :: md)) from by simp]
    rw [show (lineJoin lines).length - 1 + 5 =
      (lineJoin lines ++ "---\n".toList).length from by simp [hLlen]; try omega]
    rw [List.drop_left]
  show ((fmFullLoop (splitOnChar '\n' (List.take ((lineJoin lines).length - 1)
      (lineJoin lines ++ "---\n\n".toList ++ md))) ([], [], false)).1,
    (fmFullLoop (splitOnChar '\n' (List.take ((lineJoin lines).length - 1)
      (lineJoin lines ++ "---\n\n".toList ++ md))) ([], [], false)).2.1,
    List.drop ((lineJoin lines).length - 1 + 5) (lineJoin lines ++ "---\n\n".toList ++ md)) =
    (pid, cpids, '\n' :: md)
  rw [htake, hdrop]
  rw [splitOnChar_joinWith '\n' lines hlne hnl]
  rw [hlines]
  rw [show ("notion_id: ".toList ++ pid) = "notion_id:".toList ++ (' ' :: pid) from rfl]
  rw [fmFullLoop, if_pos (isPrefixOf_self_append "notion_id:".toList (' ' :: pid))]
  rw [show trimPfx "notion_id:".toList ("notion_id:".toList ++ (' ' :: pid)) = ' ' :: pid from by
    rw [trimPfx, if_pos (isPrefixOf_self_append _ _)]
    exact List.drop_left _ _]
  rw [trimSpace_space_cons hpt]
  rw [fmFullLoop_other ("title: ".toList ++ title) rfl rfl rfl rfl]
  rw [fmFullLoop_other ("pulled_at: ".toList ++ ts) rfl rfl rfl rfl]
  by_cases hcpn : cpids = []
  · subst hcpn
    rw [if_pos rfl]
    rfl
  · rw [if_neg hcpn]
    rw [fmFullLoop, if_neg (by decide), if_pos (by decide)]
    rw [show (cpids.map (fun c => "  - ".toList ++ c)) =
      (cpids.map (fun c => "  - ".toList ++ c)) ++ [] from (List.append_nil _).symm]
    rw [fmFullLoop_cpids cpids [] _ [] (fun c hc => ⟨(hcp c hc).2.1, (hcp c hc).2.2⟩)]
    rfl

/-- Witness for C7 at remoteId abc123 and two child-page ids. -/
theorem frontmatter_roundtrip_witness :
    parseFrontmatterFull (renderPullContent "abc123".toList "My Page".toList
        "2024-01-01".toList ["id1".toList, "id2".toList] "body text".toList) =
      ("abc123".toList, ["id1".toList, "id2".toList], '\n' :: "body text".toList) :=
  frontmatter_roundtrip "abc123".toList "My Page".toList "2024-01-01".toList
    "body text".toList ["id1".toList, "id2".toList]
    (by decide) (by decide) (by decide) (by decide) (by decide)

/-- Every markdown whose first parsed child-page marker is m0 yields, under a
warning map sending m0.id to m0, a block list containing the warning
paragraph for m0.title, at any starting block index. -/
theorem mdWarnAux_mem_warning (blocks : List Block)
    (wmap : Str → Option ChildPageInfo) (m0 : ChildPageInfo)
    (ms : List ChildPageInfo) :
    ∀ (lines : List Str) (idx j : Nat),
      parseChildPageCommentsAux lines idx = m0 :: ms →
      wmap m0.id = some m0 →
      warningBlock m0.title ∈ mdWarnAux blocks wmap lines j := by
  intro lines
  induction lines with
  | nil =>
    intro idx j h _
    simp [parseChildPageCommentsAux] at h
  | cons l ls ih =>
    intro idx j h hw
    rw [parseChildPageCommentsAux] at h
    rw [mdWarnAux]
    by_cases he : l = []
    · rw [if_pos he] at h ⊢
      exact ih idx j h hw
    · rw [if_neg he] at h ⊢
      by_cases hm : childPageMarker l = true
      · rw [if_pos hm] at h ⊢
        have h1 : (⟨(parseMarkerInner l).1, (parseMarkerInner l).2, idx⟩ : ChildPageInfo) = m0 :=
          (List.cons.injEq _ _ _ _).mp h |>.1
        rw [show (parseMarkerInner l).1 =
          (⟨(parseMarkerInner l).1, (parseMarkerInner l).2, idx⟩ : ChildPageInfo).id from rfl]
        rw [h1, hw]
        exact List.mem_append_left _ (List.mem_singleton.mpr rfl)
      · rw [if_neg hm] at h ⊢
        exact List.mem_append_right _ (ih (idx + 1) (j + 1) h hw)

/-- C2. Strategy selection with warning (amended): when the remote page has a
child page as some block and the first such child sits at block position 0,
and the FIRST child-page marker in the local markdown (not necessarily that
child page) has ordinary content before it, `PushPage` selects the simple
full-replace strategy (Strategy A) and the produced block list contains a
warning paragraph naming the title of that first marker. -/
theorem push_child_first_fallback (content : Str) (cb : List Block)
    (pid body : Str) (c0 : CurrentChildPage) (cs : List CurrentChildPage)
    (m0 : ChildPageInfo) (ms : List ChildPageInfo)
    (hpf : parseFrontmatter content = (pid, body)) (hpid : ¬ pid = [])
    (hcb : collectCurrentChildPages cb = c0 :: cs) (hc0 : c0.position = 0)
    (hmk : parseChildPageComments (extractCommentsSection body).1 = m0 :: ms)
    (hpos : 0 < m0.position) :
    ∃ blocks : List Block,
      PushPageModel content cb =
        Except.ok (PushPlan.simple pid blocks ((c0 :: cs).map (fun c => c.id))) ∧
      warningBlock m0.title ∈ blocks := by
  have hw : warningLookup [m0] m0.id = some m0 := by
    simp [warningLookup]
  have hmem : warningBlock m0.title ∈
      markdownToBlocksWithChildPageWarnings (extractCommentsSection body).1 [m0] := by
    rw [markdownToBlocksWithChildPageWarnings]
    rw [if_neg (by simp)]
    exact mdWarnAux_mem_warning _ _ m0 ms _ 0 0 hmk hw
  simp only [PushPageModel, hpf]
  rw [if_neg hpid]
  rw [hmk, hcb]
  simp only [hc0, if_pos rfl, hpos, if_pos hpos, if_true]
  by_cases hec : ¬ (extractCommentsSection body).2 = []
  · rw [if_pos hec]
    rw [if_pos (Or.inl trivial)]
    exact ⟨_, rfl, List.mem_append_left _ (List.mem_append_left _ hmem)⟩
  · rw [if_neg hec]
    rw [if_pos (Or.inl trivial)]
    exact ⟨_, rfl, hmem⟩

/-- Counterexample to C2 as stated: the remote first block is the child page
aaa (title F) and the local markdown has the line `para` before the aaa
anchor marker (the marker for aaa sits at content position 1, after one
ordinary line), yet push selects the position-preserving strategy (Strategy
B, isSimple = false), because the code only inspects the FIRST marker in the
file, here the bbb marker at position 0. -/
theorem push_strategy_counterexample :
    collectCurrentChildPages
        [Block.childPage "aaa".toList "F".toList,
         Block.paragraph [RT.text "x".toList Option.none Ann.plain]] =
      [⟨"aaa".toList, "F".toList, 0, "aaa".toList⟩] ∧
    (⟨"aaa".toList, "F".toList, 1⟩ : ChildPageInfo) ∈ parseChildPageComments
      ("<!-- child_page: bbb | O -->\npara\n<!-- child_page: aaa | F -->".toList) ∧
    (PushPageModel
        ("---\nnotion_id: p1\n---\n<!-- child_page: bbb | O -->\npara\n<!-- child_page: aaa | F -->".toList)
        [Block.childPage "aaa".toList "F".toList,
         Block.paragraph [RT.text "x".toList Option.none Ann.plain]]).toOption.map
      PushPlan.isSimple = some false := by
  decide

/-- Witness for C2 (amended) at a concrete page: one remote child page at
position 0, local content `para` before its marker. -/
theorem push_child_first_fallback_witness :
    ∃ blocks : List Block,
      PushPageModel
          ("---\nnotion_id: p1\n---\npara\n<!-- child_page: aaa | F -->".toList)
          [Block.childPage "aaa".toList "F".toList] =
        Except.ok (PushPlan.simple "p1".toList blocks ["aaa".toList]) ∧
      warningBlock "F".toList ∈ blocks :=
  push_child_first_fallback _ _ "p1".toList
    ("para\n<!-- child_page: aaa | F -->".toList)
    ⟨"aaa".toList, "F".toList, 0, "aaa".toList⟩ []
    ⟨"aaa".toList, "F".toList, 1⟩ []
    (by decide) (by decide) (by decide) rfl (by decide) (by decide)

/-- A non-child-page head contributes nothing to the trailing-id loop. -/
theorem trailingAux_cons_nonchild (lastIdx : Int) (b : Block)
    (hb : b.kind ≠ BKind.childPage) (bs : List Block) (i0 : Nat) :
    trailingChildPageIdsAux lastIdx (b :: bs) i0 =
      trailingChildPageIdsAux lastIdx bs (i0 + 1) := by
  cases b <;> first
    | rfl
    | (exact absurd (rfl : BKind.childPage = BKind.childPage)
        (by simpa [Block.kind] using hb))

/-- Unfolding of the trailing-id loop at a child-page head. -/
theorem trailingAux_cons_child (lastIdx : Int) (id2 t2 : Str)
    (bs : List Block) (i0 : Nat) :
    trailingChildPageIdsAux lastIdx (Block.childPage id2 t2 :: bs) i0 =
      (if lastIdx < (i0 : Int) ∧ id2 ≠ [] then [id2] else []) ++
        trailingChildPageIdsAux lastIdx bs (i0 + 1) := rfl

/-- Membership in the trailing-id loop: exactly the non-empty child-page ids at
absolute index past lastIdx. -/
theorem trailingAux_mem (id : Str) (hid : id ≠ []) (lastIdx : Int) :
    ∀ (bs : List Block) (i0 : Nat),
      id ∈ trailingChildPageIdsAux lastIdx bs i0 ↔
        ∃ (k : Nat) (t : Str), bs[k]? = some (Block.childPage id t) ∧
          lastIdx < ((i0 + k : Nat) : Int) := by
  intro bs
  induction bs with
  | nil =>
    intro i0
    simp [trailingChildPageIdsAux]
  | cons b bs ih =>
    intro i0
    by_cases hb : b.kind = BKind.childPage
    · obtain ⟨id2, t2, rfl⟩ : ∃ id2 t2, b = Block.childPage id2 t2 := by
        cases b <;> simp [Block.kind] at hb ⊢
      rw [trailingAux_cons_child]
      rw [List.mem_append]
      constructor
      · rintro (hm | hm)
        · by_cases hc : lastIdx < (i0 : Int) ∧ id2 ≠ []
          · rw [if_pos hc] at hm
            have hide : id = id2 := by simpa using hm
            subst hide
            exact ⟨0, t2, by simp, by simpa using hc.1⟩
          · rw [if_neg hc] at hm
            simp at hm
        · obtain ⟨k, t, hk, hlt⟩ := (ih (i0 + 1)).mp hm
          refine ⟨k + 1, t, by simpa using hk, ?_⟩
          push_cast at hlt ⊢
          omega
      · rintro ⟨k, t, hk, hlt⟩
        cases k with
        | zero =>
          left
          simp only [List.getElem?_cons_zero, Option.some.injEq] at hk
          have h1 : id2 = id ∧ t2 = t := by
            injection hk with e1 e2
            exact ⟨e1, e2⟩
          rw [if_pos ⟨by simpa using hlt, h1.1 ▸ hid⟩]
          simp [h1.1]
        | succ k =>
          right
          refine (ih (i0 + 1)).mpr ⟨k, t, by simpa using hk, ?_⟩
          push_cast at hlt ⊢
          omega
    · rw [trailingAux_cons_nonchild lastIdx b hb bs i0]
      rw [ih (i0 + 1)]
      constructor
      · rintro ⟨k, t, hk, hlt⟩
        refine ⟨k + 1, t, by simpa using hk, ?_⟩
        push_cast at hlt ⊢
        omega
      · rintro ⟨k, t, hk, hlt⟩
        cases k with
        | zero =>
          simp only [List.getElem?_cons_zero, Option.some.injEq] at hk
          rw [hk] at hb
          simp [Block.kind] at hb
        | succ k =>
          refine ⟨k, t, by simpa using hk, ?_⟩
          push_cast at hlt ⊢
          omega

/-- The last-non-child index never drops below its accumulator. -/
theorem lastIdxAux_ge_acc :
    ∀ (bs : List Block) (i0 : Nat) (acc : Int), acc ≤ (i0 : Int) →
      acc ≤ lastNonChildPageIdxAux bs i0 acc := by
  intro bs
  induction bs with
  | nil =>
    intro i0 acc _
    exact le_refl acc
  | cons b bs ih =>
    intro i0 acc hle
    rw [lastNonChildPageIdxAux]
    by_cases hb : b.kind ≠ BKind.childPage
    · rw [if_pos hb]
      exact hle.trans (ih (i0 + 1) (i0 : Int) (by push_cast; omega))
    · rw [if_neg hb]
      exact ih (i0 + 1) acc (by push_cast at hle ⊢; omega)

/-- Every non-child-page position bounds the last-non-child index from below. -/
theorem lastIdxAux_ge_nonchild :
    ∀ (bs : List Block) (i0 : Nat) (acc : Int) (k : Nat) (b : Block),
      bs[k]? = some b → b.kind ≠ BKind.childPage →
      ((i0 + k : Nat) : Int) ≤ lastNonChildPageIdxAux bs i0 acc := by
  intro bs
  induction bs with
  | nil =>
    intro i0 acc k b hk
    simp at hk
  | cons b0 bs ih =>
    intro i0 acc k b hk hb
    rw [lastNonChildPageIdxAux]
    cases k with
    | zero =>
      simp only [List.getElem?_cons_zero, Option.some.injEq] at hk
      rw [← hk] at hb
      rw [if_pos hb]
      have := lastIdxAux_ge_acc bs (i0 + 1) (i0 : Int) (by push_cast; omega)
      simpa using this
    | succ k =>
      have := ih (i0 + 1) (if b0.kind ≠ BKind.childPage then (i0 : Int) else acc) k b
        (by simpa using hk) hb
      push_cast at this ⊢
      omega

/-- The last-non-child index is the accumulator or some non-child position. -/
theorem lastIdxAux_cases :
    ∀ (bs : List Block) (i0 : Nat) (acc : Int),
      lastNonChildPageIdxAux bs i0 acc = acc ∨
        ∃ (j : Nat) (b : Block), bs[j]? = some b ∧ b.kind ≠ BKind.childPage ∧
          lastNonChildPageIdxAux bs i0 acc = ((i0 + j : Nat) : Int) := by
  intro bs
  induction bs with
  | nil =>
    intro i0 acc
    exact Or.inl rfl
  | cons b0 bs ih =>
    intro i0 acc
    rw [lastNonChildPageIdxAux]
    by_cases hb : b0.kind ≠ BKind.childPage
    · rw [if_pos hb]
      rcases ih (i0 + 1) (i0 : Int) with h | ⟨j, b, hj, hbk, hres⟩
      · exact Or.inr ⟨0, b0, by simp, hb, by simpa using h⟩
      · refine Or.inr ⟨j + 1, b, by simpa using hj, hbk, ?_⟩
        rw [hres]
        push_cast
        omega
    · rw [if_neg hb]
      rcases ih (i0 + 1) acc with h | ⟨j, b, hj, hbk, hres⟩
      · exact Or.inl h
      · refine Or.inr ⟨j + 1, b, by simpa using hj, hbk, ?_⟩
        rw [hres]
        push_cast
        omega

/-- C9 (amended). On pull, a child page id is in the trailing set exactly when
some block carrying it sits at an index past lastNonChildPageIdx, which is the
greatest non-child-page index (or -1 when every block is a child page); the
encoder run by PullPage emits nothing for a trailing child page, and renders a
non-trailing child page inline as a mention link [@Title](notion://id) — not
as a `child_page` HTML-comment anchor marker, so the marker parser used by the
position-preserving push strategy does not recognize it (see the
counterexample). -/
theorem pull_trailing_classification (blocks : List Block) (id title : Str)
    (st : Nat × Option BKind) (hid : id ≠ []) :
    (id ∈ trailingChildPageIds blocks ↔
       ∃ (k : Nat) (t : Str), blocks[k]? = some (Block.childPage id t) ∧
         lastNonChildPageIdx blocks < (k : Int)) ∧
    (∀ (k : Nat) (b : Block), blocks[k]? = some b → b.kind ≠ BKind.childPage →
       (k : Int) ≤ lastNonChildPageIdx blocks) ∧
    (lastNonChildPageIdx blocks = -1 ∨
       ∃ (j : Nat) (b : Block), blocks[j]? = some b ∧ b.kind ≠ BKind.childPage ∧
         lastNonChildPageIdx blocks = (j : Int)) ∧
    ((trailingChildPageIds blocks).contains id = true →
       (encBlock (fun i2 => (trailingChildPageIds blocks).contains i2) st
         (Block.childPage id title)).1 = []) ∧
    ((trailingChildPageIds blocks).contains id = false →
       (encBlock (fun i2 => (trailingChildPageIds blocks).contains i2) st
         (Block.childPage id title)).1 =
       "[@".toList ++ (if title = [] then "Untitled".toList else title) ++
         "](notion://".toList ++ id ++ ")\n\n".toList) := by
  refine ⟨?_, ?_, ?_, ?_, ?_⟩
  · rw [trailingChildPageIds]
    rw [trailingAux_mem id hid (lastNonChildPageIdx blocks) blocks 0]
    constructor
    · rintro ⟨k, t, hk, hlt⟩
      exact ⟨k, t, hk, by simpa using hlt⟩
    · rintro ⟨k, t, hk, hlt⟩
      exact ⟨k, t, hk, by simpa using hlt⟩
  · intro k b hk hb
    have := lastIdxAux_ge_nonchild blocks 0 (-1) k b hk hb
    rw [lastNonChildPageIdx]
    simpa using this
  · rw [lastNonChildPageIdx]
    rcases lastIdxAux_cases blocks 0 (-1) with h | ⟨j, b, hj, hbk, hres⟩
    · exact Or.inl h
    · exact Or.inr ⟨j, b, hj, hbk, by simpa using hres⟩
  · intro hc
    simp only [encBlock]
    rw [if_pos hid, if_pos hc]
  · intro hc
    simp only [encBlock]
    rw [if_pos hid, if_neg (by rw [hc]; simp)]

/-- Counterexample to C9 as stated: a page whose child page `abc` is
non-trailing (a paragraph follows it) pulls to a mention link, and Strategy
B's marker parser `parseChildPageComments` finds no anchor marker at all in
the pulled markdown. -/
theorem pull_marker_mismatch_counterexample :
    trailingChildPageIds
        [Block.childPage "abc".toList "T".toList,
         Block.paragraph [RT.text "para".toList Option.none Ann.plain]] = [] ∧
    pullMarkdown
        [Block.childPage "abc".toList "T".toList,
         Block.paragraph [RT.text "para".toList Option.none Ann.plain]] =
      "[@T](notion://abc)\n\npara\n\n".toList ∧
    parseChildPageComments
      (pullMarkdown
        [Block.childPage "abc".toList "T".toList,
         Block.paragraph [RT.text "para".toList Option.none Ann.plain]]) = [] := by
  decide

/-- Witness for C9 (amended) on a two-block page whose child page is trailing. -/
theorem pull_trailing_classification_witness :
    "t1".toList ∈ trailingChildPageIds
        [Block.paragraph [RT.text "x".toList Option.none Ann.plain],
         Block.childPage "t1".toList "A".toList] ↔
      ∃ (k : Nat) (t : Str),
        ([Block.paragraph [RT.text "x".toList Option.none Ann.plain],
          Block.childPage "t1".toList "A".toList])[k]? =
            some (Block.childPage "t1".toList t) ∧
        lastNonChildPageIdx
          [Block.paragraph [RT.text "x".toList Option.none Ann.plain],
           Block.childPage "t1".toList "A".toList] < (k : Int) :=
  (pull_trailing_classification
    [Block.paragraph [RT.text "x".toList Option.none Ann.plain],
     Block.childPage "t1".toList "A".toList]
    "t1".toList "A".toList (1, Option.none) (by decide)).1

/-- One thousand consecutive one-item numbered-list lines. -/
def ex1000 : Str := (List.replicate 1000 "1. a\n".toList).flatten

/-- The numbered-list block each of those lines decodes to. -/
def numberedA : Block := Block.numbered [RT.text "a".toList Option.none Ann.plain]

set_option maxRecDepth 100000 in
/-- Decoding the thousand lines yields a thousand numbered items. -/
theorem c1a : MarkdownToBlocks ex1000 = List.replicate 1000 numberedA := by rfl

set_option maxRecDepth 100000 in
/-- Re-decoding their encoding ends in a paragraph: the encoder emits the
unbounded ordinal 1000 but the decoder only accepts a dot within the first
four characters, so `1000. a` is not a numbered-list line. -/
theorem c1b :
    (MarkdownToBlocks (BlocksToMarkdown (List.replicate 1000 numberedA))).getLast? =
      some (Block.paragraph [RT.text "1000. a".toList Option.none Ann.plain]) := by rfl

set_option maxRecDepth 100000 in
/-- C1.  The decode/encode round trip is NOT the identity on every
decode-produced block sequence: the thousand numbered items obtained by
decoding `1. a` a thousand times re-decode, after encoding, to a sequence
whose last block is the paragraph `1000. a` instead of a numbered item —
the encoder's ordinal counter is unbounded while the decoder caps the
ordinal at three digits. -/
theorem roundtrip_thousand_numbered_divergence :
    MarkdownToBlocks ex1000 = List.replicate 1000 numberedA ∧
    (∀ b ∈ MarkdownToBlocks ex1000, b.kind = BKind.numbered) ∧
    (MarkdownToBlocks (BlocksToMarkdown (MarkdownToBlocks ex1000))).getLast? =
      some (Block.paragraph [RT.text "1000. a".toList Option.none Ann.plain]) ∧
    MarkdownToBlocks (BlocksToMarkdown (MarkdownToBlocks ex1000)) ≠
      MarkdownToBlocks ex1000 := by
  have hrep : (List.replicate 1000 numberedA).getLast? = some numberedA := by
    simp [List.getLast?_replicate]
  refine ⟨c1a, ?_, ?_, ?_⟩
  · intro b hb
    rw [c1a] at hb
    rw [List.eq_of_mem_replicate hb]
    rfl
  · rw [c1a]
    exact c1b
  · rw [c1a]
    intro h
    have h2 := congrArg List.getLast? h
    rw [c1b, hrep] at h2
    simp [numberedA] at h2

/-- Every run of the inline scan loop partitions its input: with sufficient
fuel, the input splits into as many nonempty consecutive source segments as
returned spans — each loop iteration consumes at least one character and
every character lands in exactly one consumed segment. -/
theorem parseInlineFuel_partition : ∀ (n : Nat) (s : Str), s.length ≤ n →
    ∃ segs : List Str, segs.flatten = s ∧
      segs.length = (parseInlineFuel n s).length ∧ ∀ t ∈ segs, t ≠ [] := by
  intro n s
  induction n, s using parseInlineFuel.induct with
  | case1 t =>
    intro _
    exact ⟨[], rfl, by simp [parseInlineFuel], by simp⟩
  | case2 c rest =>
    intro h
    simp at h
  | case3 fuel r2 content after hx ih =>
    intro h
    have hr2 : r2 = content ++ '*' :: '*' :: after := splitAtStarStar_eq hx
    have hb : after.length ≤ fuel := by
      subst hr2
      simp at h
      omega
    obtain ⟨segs, hf, hl, hne⟩ := ih hb
    refine ⟨('*' :: '*' :: (content ++ ['*', '*'])) :: segs, ?_, ?_, ?_⟩
    · simp [hf, hr2]
    · simp only [parseInlineFuel, hx, List.length_cons]
      rw [hl]
    · intro t ht
      rcases List.mem_cons.mp ht with h1 | h1
      · subst h1; simp
      · exact hne t h1
  | case4 fuel r2 hx ih =>
    intro h
    have hb : ('*' :: r2).length ≤ fuel := by simp at h ⊢; omega
    obtain ⟨segs, hf, hl, hne⟩ := ih hb
    refine ⟨['*'] :: segs, ?_, ?_, ?_⟩
    · simp [hf]
    · simp only [parseInlineFuel, hx, List.length_cons]
      rw [hl]
    · intro t ht
      rcases List.mem_cons.mp ht with h1 | h1
      · subst h1; simp
      · exact hne t h1
  | case5 fuel rest hsh content after hx ih =>
    intro h
    have hr : rest = content ++ '*' :: after := splitAtChar_eq hx
    have hb : after.length ≤ fuel := by
      subst hr
      simp at h
      omega
    obtain ⟨segs, hf, hl, hne⟩ := ih hb
    refine ⟨('*' :: (content ++ ['*'])) :: segs, ?_, ?_, ?_⟩
    · simp [hf, hr]
    · simp only [parseInlineFuel, hx, List.length_cons]
      rw [hl]
    · intro t ht
      rcases List.mem_cons.mp ht with h1 | h1
      · subst h1; simp
      · exact hne t h1
  | case6 fuel rest hsh hx ih =>
    intro h
    have hb : rest.length ≤ fuel := by simp at h; omega
    obtain ⟨segs, hf, hl, hne⟩ := ih hb
    refine ⟨['*'] :: segs, ?_, ?_, ?_⟩
    · simp [hf]
    · simp only [parseInlineFuel, hx, List.length_cons]
      rw [hl]
    · intro t ht
      rcases List.mem_cons.mp ht with h1 | h1
      · subst h1; simp
      · exact hne t h1
  | case7 fuel rest content after hx ih =>
    intro h
    have hr : rest = content ++ '`' :: after := splitAtChar_eq hx
    have hb : after.length ≤ fuel := by
      subst hr
      simp at h
      omega
    obtain ⟨segs, hf, hl, hne⟩ := ih hb
    refine ⟨('`' :: (content ++ ['`'])) :: segs, ?_, ?_, ?_⟩
    · simp [hf, hr]
    · simp only [parseInlineFuel, hx, List.length_cons]
      rw [hl]
    · intro t ht
      rcases List.mem_cons.mp ht with h1 | h1
      · subst h1; simp
      · exact hne t h1
  | case8 fuel rest hx ih =>
    intro h
    have hb : rest.length ≤ fuel := by simp at h; omega
    obtain ⟨segs, hf, hl, hne⟩ := ih hb
    refine ⟨['`'] :: segs, ?_, ?_, ?_⟩
    · simp [hf]
    · simp only [parseInlineFuel, hx, List.length_cons]
      rw [hl]
    · intro t ht
      rcases List.mem_cons.mp ht with h1 | h1
      · subst h1; simp
      · exact hne t h1
  | case9 fuel rest linkText r2 hx1 url after hx ih =>
    intro h
    have hr : rest = linkText ++ ']' :: '(' :: r2 := splitAtChar_eq hx1
    have hr2 : r2 = url ++ ')' :: after := splitAtChar_eq hx
    have hb : after.length ≤ fuel := by
      subst hr hr2
      simp at h
      omega
    obtain ⟨segs, hf, hl, hne⟩ := ih hb
    refine ⟨('[' :: (linkText ++ [']', '('] ++ url ++ [')'])) :: segs, ?_, ?_, ?_⟩
    · simp [hf, hr, hr2]
    · simp only [parseInlineFuel, hx1, hx, List.length_cons]
      rw [hl]
    · intro t ht
      rcases List.mem_cons.mp ht with h1 | h1
      · subst h1; simp
      · exact hne t h1
  | case10 fuel rest linkText r2 hx1 hx ih =>
    intro h
    have hb : rest.length ≤ fuel := by simp at h; omega
    obtain ⟨segs, hf, hl, hne⟩ := ih hb
    refine ⟨['['] :: segs, ?_, ?_, ?_⟩
    · simp [hf]
    · simp only [parseInlineFuel, hx1, hx, List.length_cons]
      rw [hl]
    · intro t ht
      rcases List.mem_cons.mp ht with h1 | h1
      · subst h1; simp
      · exact hne t h1
  | case11 fuel rest lt1 hx ih =>
    intro h
    have hb : rest.length ≤ fuel := by simp at h; omega
    obtain ⟨segs, hf, hl, hne⟩ := ih hb
    refine ⟨['['] :: segs, ?_, ?_, ?_⟩
    · simp [hf]
    · simp only [parseInlineFuel, hx, List.length_cons]
      rw [hl]
    · intro t ht
      rcases List.mem_cons.mp ht with h1 | h1
      · subst h1; simp
      · exact hne t h1
  | case12 fuel rest lt1 hd tl hne1 hx ih =>
    intro h
    have hb : rest.length ≤ fuel := by simp at h; omega
    obtain ⟨segs, hf, hl, hne⟩ := ih hb
    refine ⟨['['] :: segs, ?_, ?_, ?_⟩
    · simp [hf]
    · simp only [parseInlineFuel, hx, List.length_cons]
      rw [hl]
    · intro t ht
      rcases List.mem_cons.mp ht with h1 | h1
      · subst h1; simp
      · exact hne t h1
  | case13 fuel rest hx ih =>
    intro h
    have hb : rest.length ≤ fuel := by simp at h; omega
    obtain ⟨segs, hf, hl, hne⟩ := ih hb
    refine ⟨['['] :: segs, ?_, ?_, ?_⟩
    · simp [hf]
    · simp only [parseInlineFuel, hx, List.length_cons]
      rw [hl]
    · intro t ht
      rcases List.mem_cons.mp ht with h1 | h1
      · subst h1; simp
      · exact hne t h1
  | case14 fuel c rest hs1 hs2 hs3 hs4 hsp ih =>
    intro h
    have hb : rest.length ≤ fuel := by simp at h; omega
    obtain ⟨segs, hf, hl, hne⟩ := ih hb
    refine ⟨[c] :: segs, ?_, ?_, ?_⟩
    · simp [hf]
    · simp only [parseInlineFuel, List.length_cons]
      rw [if_pos hsp]
      simp only [List.length_cons]
      rw [hl]
    · intro t ht
      rcases List.mem_cons.mp ht with h1 | h1
      · subst h1; simp
      · exact hne t h1
  | case15 fuel c rest hs1 hs2 hs3 hs4 hsp ih =>
    intro h
    have hsp2 : isSpecialChar c = false := by
      cases hcc : isSpecialChar c
      · rfl
      · exact absurd hcc hsp
    have hpc : (fun ch => !isSpecialChar ch) c = true := by
      show (!isSpecialChar c) = true
      rw [hsp2]
      rfl
    have hb : ((c :: rest).dropWhile (fun ch => !isSpecialChar ch)).length ≤ fuel := by
      have := @length_dropWhile_cons_lt (fun ch => !isSpecialChar ch) c rest hpc
      simp at h
      simp only [List.length_cons] at this
      omega
    obtain ⟨segs, hf, hl, hne⟩ := ih hb
    refine ⟨((c :: rest).takeWhile (fun ch => !isSpecialChar ch)) :: segs, ?_, ?_, ?_⟩
    · simp only [List.flatten_cons, hf]
      exact List.takeWhile_append_dropWhile (fun ch => !isSpecialChar ch) (c :: rest)
    · simp only [parseInlineFuel, List.length_cons]
      rw [if_neg (by simp at hsp ⊢; exact hsp)]
      simp only [List.length_cons]
      rw [hl]
    · intro t ht
      rcases List.mem_cons.mp ht with h1 | h1
      · subst h1
        rw [@List.takeWhile_cons_of_pos _ (fun ch => !isSpecialChar ch) c rest hpc]
        simp
      · exact hne t h1

/-- C4.  The inline decoder is total and lossless at the segment level: for
every input string the source partitions into nonempty segments in
one-to-one correspondence with the returned spans (so every input byte is
consumed into some span and none is dropped), the decoder never returns an
empty result, and an opening marker with no matching close is emitted as a
literal character span rather than an error. -/
theorem parseInline_total :
    (∀ s : Str, ∃ segs : List Str, segs.flatten = s ∧
       segs.length = (parseInlineCore s).length ∧ ∀ t ∈ segs, t ≠ []) ∧
    (∀ s : Str, parseInlineMarkdown s ≠ []) ∧
    parseInlineMarkdown "**unclosed".toList =
      [RT.text "*".toList Option.none Ann.plain, RT.text "*".toList Option.none Ann.plain,
       RT.text "unclosed".toList Option.none Ann.plain] ∧
    parseInlineMarkdown "[link".toList =
      [RT.text "[".toList Option.none Ann.plain,
       RT.text "link".toList Option.none Ann.plain] := by
  refine ⟨?_, ?_, by decide, by decide⟩
  · intro s
    exact parseInlineFuel_partition s.length s (le_refl _)
  · intro s
    simp only [parseInlineMarkdown]
    by_cases hres : (parseInlineCore s).isEmpty = true
    · rw [if_pos hres]
      simp
    · rw [if_neg hres]
      intro hnil
      exact hres (by rw [hnil]; rfl)

/-- Witness for C4 on a string mixing all four inline constructs. -/
theorem parseInline_total_witness :
    ∃ segs : List Str, segs.flatten = "a *b* `c` [d](e)".toList ∧
      segs.length = (parseInlineCore "a *b* `c` [d](e)".toList).length ∧
      ∀ t ∈ segs, t ≠ [] :=
  parseInline_total.1 "a *b* `c` [d](e)".toList

end NotionSync
